import Mathlib

/-!
Verification development for the printree directory-tree inspection tool
(`src/core/tree.rs` and `src/utils/filter.rs`).

The Rust code is shallowly embedded: paths are lists of components
(the model works with absolute paths, so `Path::is_absolute` is always
true), machine integers are `Nat` with explicit `2 ^ 64` bounds where the
source checks for `u64` overflow, filesystem I/O is a record of query
functions (one field per `std::fs` primitive the source calls), and
fallible operations return `Option` or `Except`.  The external pattern
engines (globset, regex_automata) and the git status map are opaque
collaborators in the source's own architecture; they are modelled as
opaque decidable predicates / lookup functions, exactly the capability
interface the core consumes.
-/

namespace Printree

/-- A filesystem path, as a list of components (all paths absolute). -/
abbrev FsPath := List String

/-- Rendering of a path, standing in for `Path::display`. -/
def pathDisplay (p : FsPath) : String := String.intercalate "/" p

/-- Port of `path_within_root` (tree.rs:187): equality or component-wise
`Path::starts_with`. -/
def path_within_root (path root : FsPath) : Bool :=
  if path = root then true else root.isPrefixOf path

/-- File-type classification carried by `std::fs::FileType`
(`is_dir` / `is_file` / `is_symlink` are mutually exclusive). -/
inductive FKind where
  | file
  | dir
  | symlink
  | other
deriving DecidableEq, Repr

/-- The subset of `std::fs::Metadata` the source reads: file type,
`len()`, `modified()` (seconds since epoch; `none` models both a failed
`modified()` call and a pre-epoch time, which the source also maps to no
output), and the unix permission `mode()` bits. -/
structure Metadata where
  fileType : FKind
  len : Nat
  modified : Option Nat
  mode : Nat
deriving DecidableEq, Repr

/-- One raw directory entry as yielded by `fs::read_dir`: its name and
the result of `DirEntry::file_type()`. -/
structure DirEntryRaw where
  name : String
  fileTypeRes : Except String FKind
deriving Repr

/-- The filesystem, as a record of the `std::fs` query functions the
source calls.  `readDir p = none` models a `read_dir` error (permission
denied); `canonicalize p = none` models a `fs::canonicalize` failure;
`readLink` returns the already-absolutised link target (model paths are
absolute, so the relative-target join in the source is the identity). -/
structure FileSystem where
  symlinkMetadata : FsPath → Except String Metadata
  metadata : FsPath → Except String Metadata
  canonicalize : FsPath → Option FsPath
  readLink : FsPath → Option FsPath
  readDir : FsPath → Option (List DirEntryRaw)

/-- Port of the `EntryMeta` working record (tree.rs:93).  The windows
permission word is dropped (unix configuration of the source). -/
structure EntryMeta where
  path : FsPath
  name : String
  file_type : Option FKind
  target_file_type : Option FKind
  size : Option Nat
  mtime : Option Nat
  perm_unix : Option Nat
  is_symlink : Bool
  symlink_target : Option FsPath
  canonical_path : Option FsPath
  loop_detected : Bool
  error : Option String
  git_status : Option Char
deriving DecidableEq, Repr

/-- Output kind enumeration (tree.rs:133). -/
inductive EntryKind where
  | file
  | dir
  | symlink
  | unknown
deriving DecidableEq, Repr

/-- Port of the serializable `Entry` projection (tree.rs:112). -/
structure Entry where
  name : String
  path : String
  depth : Nat
  kind : EntryKind
  size : Option Nat
  mtime : Option String
  perm : Option String
  symlink_target : Option String
  loop_detected : Bool
  error : Option String
  git_status : Option Char
deriving DecidableEq, Repr

/-- `EntryMeta::is_directory` (tree.rs:771). -/
def EntryMeta.is_directory (m : EntryMeta) : Bool :=
  (m.file_type.map (· == FKind.dir)).getD false

/-- `EntryMeta::points_to_directory` (tree.rs:775). -/
def EntryMeta.points_to_directory (m : EntryMeta) : Bool :=
  if m.is_symlink then (m.target_file_type.map (· == FKind.dir)).getD false
  else m.is_directory

/-- `EntryMeta::sort_key` (tree.rs:783). -/
def EntryMeta.sort_key (m : EntryMeta) : String := m.name

/-- Port of `EntryMeta::construct` (tree.rs:695). -/
def EntryMeta.construct (fs : FileSystem) (path : FsPath) (name : String)
    (file_type : Option FKind) (metadata : Option Metadata)
    (is_symlink : Bool) (errors : List String) : EntryMeta :=
  let size := metadata.map (·.len)
  let mtime := metadata.bind (·.modified)
  let perm_unix := metadata.map (·.mode)
  let target_file_type := metadata.map (·.fileType)
  let is_dir := (file_type.map (· == FKind.dir)).getD false
  let canonical_path := if is_dir || is_symlink then fs.canonicalize path else none
  let symlink_target :=
    if is_symlink then
      match canonical_path with
      | some canon => some canon
      | none => fs.readLink path
    else none
  { path := path
    name := name
    file_type := file_type
    target_file_type := target_file_type
    size := size
    mtime := mtime
    perm_unix := perm_unix
    is_symlink := is_symlink
    symlink_target := symlink_target
    canonical_path := canonical_path
    loop_detected := false
    error := if errors.isEmpty then none else some (String.intercalate "; " errors)
    git_status := none }

/-- Port of `EntryMeta::from_path` (tree.rs:654), used for the scan root.
The root name is the last path component (or the whole path rendering when
there is none). -/
def EntryMeta.from_path (fs : FileSystem) (path : FsPath) : EntryMeta :=
  let name := (path.getLast?).getD (pathDisplay path)
  let res0 := fs.symlinkMetadata path
  let errors0 : List String := match res0 with
    | .ok _ => []
    | .error e => [e]
  let metadata_symlink : Option Metadata := res0.toOption
  let file_type0 := metadata_symlink.map (·.fileType)
  let is_symlink := (file_type0.map (· == FKind.symlink)).getD false
  let (metadata_follow, errors1) :=
    if is_symlink then
      match fs.metadata path with
      | .ok md => (some md, errors0)
      | .error e => (none, errors0 ++ [e])
    else (metadata_symlink, errors0)
  let file_type :=
    match file_type0 with
    | some ft => some ft
    | none => metadata_follow.map (·.fileType)
  EntryMeta.construct fs path name file_type metadata_follow is_symlink errors1

/-- Lightweight seed captured during the directory listing (tree.rs:194). -/
structure EntrySeed where
  path : FsPath
  name : String
  file_type_hint : Option FKind
  file_type_error : Option String
deriving DecidableEq, Repr

/-- Port of `EntryMeta::from_seed` (tree.rs:787). -/
def EntryMeta.from_seed (fs : FileSystem) (seed : EntrySeed) : EntryMeta :=
  let errors0 : List String := match seed.file_type_error with
    | some e => [e]
    | none => []
  let (file_type0, errors1) :=
    match seed.file_type_hint with
    | some ft => (some ft, errors0)
    | none =>
      match fs.symlinkMetadata seed.path with
      | .ok md => (some md.fileType, errors0)
      | .error e => (none, errors0 ++ [e])
  let (metadata, errors2) :=
    match fs.metadata seed.path with
    | .ok md => (some md, errors1)
    | .error e => (none, errors1 ++ [e])
  let file_type :=
    match file_type0 with
    | some ft => some ft
    | none => metadata.map (·.fileType)
  let is_symlink := (file_type.map (· == FKind.symlink)).getD false
  EntryMeta.construct fs seed.path seed.name file_type metadata is_symlink errors2

/-- Octal rendering of the unix mode word, as `format!("\x7bperm:03o\x7d")`
(tree.rs:828): base-8 digits, zero-padded to at least three places. -/
def formatOctal3 (n : Nat) : String :=
  let ds := (Nat.toDigits 8 n)
  let padded := if ds.length < 3 then List.replicate (3 - ds.length) '0' ++ ds else ds
  String.mk padded

/-- Port of `format_permissions` (unix variant, tree.rs:828). -/
def format_permissions (m : EntryMeta) : Option String :=
  m.perm_unix.map formatOctal3

/-- Port of `Entry::from_meta` (tree.rs:887). -/
def Entry.from_meta (meta : EntryMeta) (depth : Nat) : Entry :=
  let kind :=
    if meta.is_symlink then EntryKind.symlink
    else if meta.is_directory then EntryKind.dir
    else if (meta.file_type.map (· == FKind.file)).getD false then EntryKind.file
    else EntryKind.unknown
  let mtime := meta.mtime.map (fun secs => Nat.repr secs)
  let perm := format_permissions meta
  let symlink_target :=
    if meta.is_symlink then
      match meta.symlink_target with
      | some p => some (pathDisplay p)
      | none => some ("[broken symlink]")
    else none
  { name := meta.name
    path := pathDisplay meta.path
    depth := depth
    kind := kind
    size := meta.size
    mtime := mtime
    perm := perm
    symlink_target := symlink_target
    loop_detected := meta.loop_detected
    error := meta.error
    git_status := meta.git_status }

end Printree

namespace Printree

/-- Sort mode enumeration (cli/args.rs:122). -/
inductive SortMode where
  | nosort
  | name
deriving DecidableEq, Repr

/-- Match basis for pattern filters (cli/args.rs:128). -/
inductive MatchMode where
  | name
  | path
deriving DecidableEq, Repr

/-- Type filter enumeration (cli/args.rs:140). -/
inductive TypeFilter where
  | file
  | dir
  | symlink
deriving DecidableEq, Repr

/-- Size comparison operator (tree.rs:392). -/
inductive SizeCmp where
  | lt
  | le
  | eq
  | ge
  | gt
deriving DecidableEq, Repr

/-- Compiled size filter (tree.rs:401). -/
structure SizeFilter where
  cmp : SizeCmp
  threshold : Nat
deriving DecidableEq, Repr

/-- Port of `SizeFilter::allows` (tree.rs:491): an unknown size never
matches. -/
def SizeFilter.allows (f : SizeFilter) (size : Option Nat) : Bool :=
  match size with
  | none => false
  | some size =>
    match f.cmp with
    | .lt => size < f.threshold
    | .le => size ≤ f.threshold
    | .eq => size = f.threshold
    | .ge => size ≥ f.threshold
    | .gt => size > f.threshold

/-- Compiled mtime filter (tree.rs:406): earliest acceptable instant,
seconds since epoch. -/
structure MtimeFilter where
  earliest : Nat
deriving DecidableEq, Repr

/-- Port of `MtimeFilter::allows` (tree.rs:507). -/
def MtimeFilter.allows (f : MtimeFilter) (mtime : Option Nat) : Bool :=
  match mtime with
  | some time => f.earliest ≤ time
  | none => false

/-- Compiled permission filter (tree.rs:410). -/
structure PermFilter where
  expected : Nat
deriving DecidableEq, Repr

/-- Port of `PermFilter::allows` (tree.rs:516): exact match on the low
nine permission bits. -/
def PermFilter.allows (f : PermFilter) (perm : Option Nat) : Bool :=
  match perm with
  | some bits => bits % 512 = f.expected
  | none => false

/-- Rust `char::is_whitespace`, restricted to the characters the model
exercises (`str::trim`). -/
def isWs (c : Char) : Bool := c.isWhitespace

/-- Port of `str::trim` on character lists. -/
def trimChars (cs : List Char) : List Char :=
  ((cs.dropWhile isWs).reverse.dropWhile isWs).reverse

/-- Parse of an all-digit numeral as `str::parse::<u64>` does: digits
only, value below `2 ^ 64`. -/
def parseU64 (cs : List Char) : Option Nat :=
  if cs.isEmpty then none
  else if cs.all Char.isDigit then
    let v := cs.foldl (fun acc c => acc * 10 + (c.toNat - 48)) 0
    if v < 2 ^ 64 then some v else none
  else none

/-- Unit table of `parse_size_filter` (tree.rs:562): lower-cased unit
suffix to byte multiplier (binary powers). -/
def sizeUnitMultiplier (unit : List Char) : Option Nat :=
  if unit = [] ∨ unit = ['b'] then some 1
  else if unit = ['k'] ∨ unit = ['k', 'b'] ∨ unit = ['k', 'i', 'b'] then some (2 ^ 10)
  else if unit = ['m'] ∨ unit = ['m', 'b'] ∨ unit = ['m', 'i', 'b'] then some (2 ^ 20)
  else if unit = ['g'] ∨ unit = ['g', 'b'] ∨ unit = ['g', 'i', 'b'] then some (2 ^ 30)
  else if unit = ['t'] ∨ unit = ['t', 'b'] ∨ unit = ['t', 'i', 'b'] then some (2 ^ 40)
  else none

/-- The remainder stage of `parse_size_filter` (tree.rs:540-575), after
the comparison operator has been stripped: trim, split at the first
non-ASCII-digit character, parse the numeral as `u64`, look up the
trimmed lower-cased unit, and `checked_mul` against the `u64` range. -/
def parseSizeRemainder (cmp : SizeCmp) (rest : List Char) : Except String SizeFilter :=
  let remainder := trimChars rest
  if remainder.isEmpty then .error ("invalid --filter-size value")
  else
    let numPart := remainder.takeWhile Char.isDigit
    let unitPart := remainder.dropWhile Char.isDigit
    if numPart.isEmpty then .error ("invalid --filter-size value")
    else
      match parseU64 numPart with
      | none => .error ("invalid --filter-size numeric value")
      | some value =>
        let unit := (trimChars unitPart).map Char.toLower
        match sizeUnitMultiplier unit with
        | none => .error ("invalid --filter-size unit")
        | some multiplier =>
          if value * multiplier < 2 ^ 64 then
            .ok { cmp := cmp, threshold := value * multiplier }
          else .error ("--filter-size value overflow")

/-- Port of `parse_size_filter` (tree.rs:524), operating on the spec's
character list: trim, then strip the comparison operator (two-character
operators first, in the source's order) and process the remainder. -/
def parseSizeChars (spec0 : List Char) : Except String SizeFilter :=
  let spec := trimChars spec0
  if ['>', '='].isPrefixOf spec then parseSizeRemainder .ge (spec.drop 2)
  else if ['<', '='].isPrefixOf spec then parseSizeRemainder .le (spec.drop 2)
  else if ['=', '='].isPrefixOf spec then parseSizeRemainder .eq (spec.drop 2)
  else if ['>'].isPrefixOf spec then parseSizeRemainder .gt (spec.drop 1)
  else if ['<'].isPrefixOf spec then parseSizeRemainder .lt (spec.drop 1)
  else .error ("invalid --filter-size value")

/-- `parse_size_filter` on a string spec. -/
def parse_size_filter (spec : String) : Except String SizeFilter :=
  parseSizeChars spec.data

/-- Port of the `Filters` bundle (tree.rs:383).  The compiled
`regex_automata` matcher is an external engine; it is modelled as the
opaque decidable predicate the core consumes. -/
structure Filters where
  root : FsPath
  match_mode : MatchMode
  regex : Option (String → Bool)
  size : Option SizeFilter
  mtime : Option MtimeFilter
  perm : Option PermFilter

/-- `Path::strip_prefix(root)` with the `unwrap_or(path)` fallback used
by `Filters::allows` (tree.rs:459). -/
def stripRootOr (root path : FsPath) : FsPath :=
  if root.isPrefixOf path then path.drop root.length else path

/-- Port of `Filters::allows` (tree.rs:453): every configured filter must
accept; the regex target is the base name or the root-relative path. -/
def Filters.allows (f : Filters) (meta : EntryMeta) : Bool :=
  let regexOk :=
    match f.regex with
    | some re =>
      let target :=
        match f.match_mode with
        | .name => meta.name
        | .path => pathDisplay (stripRootOr f.root meta.path)
      re target
    | none => true
  regexOk
    && (match f.size with | some s => s.allows meta.size | none => true)
    && (match f.mtime with | some m => m.allows meta.mtime | none => true)
    && (match f.perm with | some p => p.allows meta.perm_unix | none => true)

/-- Opaque compiled include/exclude pattern list (`PatternList`,
filter.rs:12): the globset / regex engines are external crates, modelled
as a decidable match predicate over the target path. -/
structure PatternList where
  isMatch : FsPath → Bool

/-- Port of `is_hidden` (filter.rs:17): the name starts with a dot. -/
def is_hidden (name : String) : Bool :=
  match name.data with
  | [] => false
  | c :: _ => c = '.'

/-- Port of `allow_type` (filter.rs:120). -/
def allow_type (ty : FKind) (types : List TypeFilter) : Bool :=
  if types.isEmpty then true
  else
    let is_dir := ty == FKind.dir
    let is_symlink := ty == FKind.symlink
    let is_file := !is_dir && !is_symlink
    types.any fun t =>
      match t with
      | .file => is_file
      | .dir => is_dir
      | .symlink => is_symlink

/-- Port of `target_for_glob` (filter.rs:134). -/
def target_for_glob (root path : FsPath) (mode : MatchMode) : FsPath :=
  match mode with
  | .name => (path.getLast?).map (fun n => [n]) |>.getD []
  | .path => stripRootOr root path

/-- Port of `match_globs` (filter.rs:150). -/
def match_globs (root path : FsPath) (include_glob exclude_glob : Option PatternList)
    (mode : MatchMode) : Bool :=
  let inclOk :=
    match include_glob with
    | some gs => gs.isMatch (target_for_glob root path mode)
    | none => true
  if !inclOk then false
  else
    match exclude_glob with
    | some gs => !gs.isMatch (target_for_glob root path mode)
    | none => true

end Printree

namespace Printree

/-- Traversal configuration: the `Cli` fields the embedded core reads
(cli/args.rs:10, plus the worker/warn fields consumed by tree.rs). -/
structure Cfg where
  max_depth : Option Nat
  hidden : Bool
  follow_symlinks : Bool
  sort : SortMode
  dirs_first : Bool
  types : List TypeFilter
  match_mode : MatchMode
deriving Repr

/-- Port of `JobPool` (tree.rs:212). -/
structure JobPool where
  workers : Nat
deriving DecidableEq, Repr

/-- Port of `JobPool::new` (tree.rs:217): zero workers is a configuration
error; values above 256 are clamped. -/
def JobPool.new (jobs : Nat) : Except String JobPool :=
  if jobs = 0 then .error ("--jobs must be >= 1")
  else if jobs > 256 then .ok { workers := 256 }
  else .ok { workers := jobs }

/-- `JobPool::is_parallel` (tree.rs:237). -/
def JobPool.is_parallel (j : JobPool) : Bool := j.workers > 1

/-- Structural helper for `slice::chunks`: the counter starts at the
list length and strictly dominates the recursion (the source guards the
chunk size with `.max(1)`, so every step strictly shrinks the list). -/
def listChunksAux {α : Type} (k : Nat) : Nat → List α → List (List α)
  | 0, _ => []
  | _, [] => []
  | n + 1, a :: rest =>
    (a :: rest).take (max k 1) ::
      listChunksAux k n ((a :: rest).drop (max k 1))

/-- `slice::chunks` (contiguous chunks of size `max k 1`). -/
def listChunks {α : Type} (k : Nat) (l : List α) : List (List α) :=
  listChunksAux k l.length l

/-- Port of `build_entry_metas` (tree.rs:2125).  The parallel branch
spawns one worker per contiguous chunk; each worker sends its resolved
chunk on an mpsc channel and the receive loop appends the chunks in the
order the messages ARRIVE, i.e. in per-worker completion order decided by
the thread scheduler.  `arrival` makes that scheduling choice explicit:
it is the sequence of chunk indices in arrival order (any permutation of
`0 .. chunks - 1` can occur).  The sequential branch ignores it. -/
def build_entry_metas (fs : FileSystem) (seeds : List EntrySeed) (jobs : JobPool)
    (arrival : List Nat) : List EntryMeta :=
  if seeds.isEmpty then []
  else if !jobs.is_parallel || seeds.length ≤ 1 then
    seeds.map (EntryMeta.from_seed fs)
  else
    let workers := min jobs.workers seeds.length
    let chunk := (seeds.length + workers - 1) / workers
    let chunks := listChunks (max chunk 1) seeds
    ((arrival.filterMap (fun i => chunks.get? i)).map
      (fun c => c.map (EntryMeta.from_seed fs))).flatten

/-- Total order on booleans used by `bd.cmp(&ad)` (false before true). -/
def boolCompare (a b : Bool) : Ordering :=
  match a, b with
  | false, false => .eq
  | false, true => .lt
  | true, false => .gt
  | true, true => .eq

/-- Byte-wise lexicographic comparison standing in for `OsString::cmp`
(character-wise, on scalar values, on the model's strings). -/
def charListCompare : List Char → List Char → Ordering
  | [], [] => .eq
  | [], _ :: _ => .lt
  | _ :: _, [] => .gt
  | a :: as, b :: bs => (compare a.toNat b.toNat).then (charListCompare as bs)

/-- `OsString::cmp` on sort keys. -/
def osStrCompare (a b : String) : Ordering := charListCompare a.data b.data

/-- The comparator of the name sort (tree.rs:2107). -/
def nameCmp (a b : EntryMeta) : Ordering := osStrCompare a.sort_key b.sort_key

/-- The comparator of the dirs-first sort (tree.rs:2110):
`bd.cmp(&ad).then_with(|| a.sort_key().cmp(b.sort_key()))`. -/
def dirsFirstCmp (a b : EntryMeta) : Ordering :=
  (boolCompare b.points_to_directory a.points_to_directory).then (nameCmp a b)

/-- Stable insertion into a sorted list: the new element goes in front
of the first element it does not strictly exceed, so elements that
compare equal keep their original relative order. -/
def insertByCmp (cmp : EntryMeta → EntryMeta → Ordering) (a : EntryMeta) :
    List EntryMeta → List EntryMeta
  | [] => [a]
  | b :: bs =>
    if cmp a b = Ordering.gt then b :: insertByCmp cmp a bs else a :: b :: bs

/-- Rust `slice::sort_by` (a stable sort driven by a comparator).  A
stable sort's output is uniquely determined by the comparator, so the
stable insertion sort here computes exactly what the source's stable
merge sort computes. -/
def sortByCmp (cmp : EntryMeta → EntryMeta → Ordering) :
    List EntryMeta → List EntryMeta
  | [] => []
  | a :: rest => insertByCmp cmp a (sortByCmp cmp rest)

/-- One directory's pending listing (tree.rs:142).  `dirPath` is a ghost
field recording which directory the frame lists (the source passes this
path to `read_dir_frame` and then discards it); it does not influence any
computation. -/
structure Frame where
  entries : List EntryMeta
  idx : Nat
  pfx : String
  depth : Nat
  dirPath : FsPath
deriving Repr

/-- The traversal's collaborators, bundled: the filesystem, the validated
configuration, the compiled include/exclude patterns, the filter bundle,
the opaque `status_of` git capability and the worker pool with its
per-directory arrival schedule. -/
structure Env where
  fs : FileSystem
  cli : Cfg
  include_glob : Option PatternList
  exclude_glob : Option PatternList
  filters : Filters
  git : Option (FsPath → Option Char)
  jobs : JobPool
  arrival : FsPath → List Nat

/-- `GitTracker::apply` (tree.rs:303) with the opaque status lookup. -/
def gitApply (env : Env) (m : EntryMeta) : EntryMeta :=
  match env.git with
  | some statusOf => { m with git_status := statusOf m.path }
  | none => m

/-- Port of `read_dir_frame` (tree.rs:2031): list the directory, build
seeds (skipping hidden entries, type-filtered entries and glob-rejected
paths), resolve the seeds through `build_entry_metas`, drop entries the
filter pipeline rejects, apply the git status, sort, and wrap the result
in a `Frame` (or `none` when the listing fails or nothing survives). -/
def read_dir_frame (env : Env) (path : FsPath) (pfx : String) (depth : Nat) :
    Option Frame :=
  match env.fs.readDir path with
  | none => none
  | some rd =>
    let seeds : List EntrySeed := rd.filterMap fun de =>
      if !env.cli.hidden && is_hidden de.name then none
      else
        let hintAndErr : Option FKind × Option String :=
          match de.fileTypeRes with
          | .ok ft => (some ft, none)
          | .error e => (none, some e)
        let typeOk :=
          match hintAndErr.1 with
          | some ft => allow_type ft env.cli.types
          | none => true
        if !typeOk then none
        else
          let fullp := path ++ [de.name]
          if !match_globs path fullp env.include_glob env.exclude_glob
              env.cli.match_mode then none
          else some ⟨fullp, de.name, hintAndErr.1, hintAndErr.2⟩
    if seeds.isEmpty then none
    else
      let metas := build_entry_metas env.fs seeds env.jobs (env.arrival path)
      let entries := (metas.filter fun m => env.filters.allows m).map (gitApply env)
      if entries.isEmpty then none
      else
        let entries1 :=
          if env.cli.sort = SortMode.name then sortByCmp nameCmp entries else entries
        let entries2 :=
          if env.cli.dirs_first then sortByCmp dirsFirstCmp entries1 else entries1
        some { entries := entries2, idx := 0, pfx := pfx, depth := depth, dirPath := path }

/-- Result of `handle_entry` (tree.rs:932).  `meta` is the mutated
`entry_meta` (loop flag and error annotation), `visited` the updated
visited set, and `recorded` the canonical path inserted into it, if any
(ghost projection of the `visited.insert` call). -/
structure HandleResult where
  entry : Entry
  descend : Bool
  childPfx : String
  meta : EntryMeta
  visited : List FsPath
  recorded : Option FsPath
deriving Repr

/-- Port of `handle_entry` (tree.rs:932), the per-entry descent decision:
loop detection against the visited set, the follow-symlinks gate, the
root-containment security check, the depth limit, and the visited-set
insertion for entries that will be descended into. -/
def handle_entry (entry_meta : EntryMeta) (pfx : String) (depth : Nat)
    (is_last : Bool) (cli : Cfg) (visited : List FsPath)
    (root_guard : Option FsPath) : HandleResult :=
  let step1 : Bool × Bool × Option FsPath :=
    if entry_meta.is_symlink then
      match entry_meta.canonical_path with
      | some canonical =>
        if visited.contains canonical then (true, false, none)
        else if cli.follow_symlinks && entry_meta.points_to_directory then
          (false, entry_meta.points_to_directory, some canonical)
        else (false, false, none)
      | none => (false, false, none)
    else if entry_meta.is_directory then
      match entry_meta.canonical_path with
      | some canonical =>
        if visited.contains canonical then (true, false, none)
        else (false, entry_meta.points_to_directory, some canonical)
      | none => (false, entry_meta.points_to_directory, none)
    else (false, false, none)
  let loop_detected := step1.1
  let step2 : Bool × Bool × Option FsPath × Option String :=
    match root_guard, step1.2.2 with
    | some root_path, some candidate =>
      if !path_within_root candidate root_path then
        (false, true, none,
          match entry_meta.error with
          | none => some "symlink target outside root"
          | some e => some e)
      else (step1.2.1, false, some candidate, entry_meta.error)
    | _, _ => (step1.2.1, false, step1.2.2, entry_meta.error)
  let blocked_outside_root := step2.2.1
  let descend1 := step2.1
  let canonical_to_record := step2.2.2.1
  let descend :=
    match cli.max_depth with
    | some maxd => if maxd ≤ depth then false else descend1
    | none => descend1
  let meta1 := { entry_meta with loop_detected := loop_detected, error := step2.2.2.2 }
  let entry := Entry.from_meta meta1 depth
  let childPfx := if is_last then pfx ++ "    " else pfx ++ "│   "
  let afterInsert : List FsPath × Option FsPath × EntryMeta :=
    if descend then
      match canonical_to_record with
      | some c => (c :: visited, some c, meta1)
      | none => (visited, none, meta1)
    else if blocked_outside_root && entry_meta.is_symlink then
      (visited, none, { meta1 with loop_detected := false })
    else (visited, none, meta1)
  { entry := entry
    descend := descend
    childPfx := childPfx
    meta := afterInsert.2.2
    visited := afterInsert.1
    recorded := afterInsert.2.1 }

end Printree

namespace Printree

/-- Port of `canonical_root_for_security` (tree.rs:177).  Model paths are
absolute, so the `current_dir` branch for relative roots is dead: a root
whose canonicalization failed guards with the root path itself. -/
def canonical_root_for_security (root : FsPath) (root_meta : EntryMeta) :
    Option FsPath :=
  match root_meta.canonical_path with
  | some real => some real
  | none => some root

/-- One record of the traversal's ghost log: the processed child entry
(post-mutation), the `Entry` emitted for it and the descent decision. -/
structure StepRecord where
  meta : EntryMeta
  entry : Entry
  descend : Bool
deriving Repr

/-- State of the explicit-stack traversal loop shared by the streaming
renderers: the visited canonical set, the frame stack, the emitted
entries (newest first) and two ghost logs (canonical paths recorded into
the visited set, and processed child entries). -/
structure LoopState where
  visited : List FsPath
  stack : List Frame
  out : List Entry
  opened : List FsPath
  log : List StepRecord

/-- Outcome of one iteration of the traversal loop. -/
inductive StepOut where
  | done (s : LoopState)
  | next (s : LoopState)

/-- One iteration of the shared traversal loop (the `while` body of
`collect_entries_flat`, tree.rs:1895, identical in `run_tree_json` and
`run_tree_ndjson` up to where the entry is written): pop an exhausted
frame, otherwise process the cursor entry through `handle_entry`, emit
it, and push a child frame when the decision was to descend and the
child's listing yields one. -/
def loopStep (env : Env) (root_guard : Option FsPath) (s : LoopState) : StepOut :=
  match s.stack with
  | [] => .done s
  | frame :: rest =>
    if h : frame.idx < frame.entries.length then
      let is_last := frame.idx + 1 == frame.entries.length
      let meta := frame.entries.get ⟨frame.idx, h⟩
      let r := handle_entry meta frame.pfx frame.depth is_last env.cli s.visited root_guard
      let frame1 := { frame with idx := frame.idx + 1 }
      let s1 : LoopState :=
        { visited := r.visited
          stack := frame1 :: rest
          out := r.entry :: s.out
          opened := (r.recorded.map (· :: s.opened)).getD s.opened
          log := ⟨r.meta, r.entry, r.descend⟩ :: s.log }
      if r.descend then
        match read_dir_frame env r.meta.path r.childPfx (frame.depth + 1) with
        | some child => .next { s1 with stack := child :: s1.stack }
        | none => .next s1
      else .next s1
    else .next { s with stack := rest }

/-- Fuel-indexed iteration of `loopStep`; `none` means the fuel ran out
before the stack emptied. -/
def runLoop (env : Env) (root_guard : Option FsPath) :
    Nat → LoopState → Option LoopState
  | 0, _ => none
  | fuel + 1, s =>
    match loopStep env root_guard s with
    | .done sFinal => some sFinal
    | .next s1 => runLoop env root_guard fuel s1

/-- Root inspection shared by every driver (tree.rs:1862): root metadata
with git status, the security guard, and the visited set pre-seeded with
the root's canonical path (or the root path itself when canonicalization
fails). -/
def rootSetup (env : Env) (root : FsPath) : EntryMeta × Option FsPath × List FsPath :=
  let root_meta := gitApply env (EntryMeta.from_path env.fs root)
  let root_security := canonical_root_for_security root root_meta
  let visited : List FsPath := [(root_security.getD root)]
  (root_meta, root_security, visited)

/-- The root frame stack: the result of listing the scan root
(tree.rs:1881), an empty stack when the listing fails. -/
def rootStack (env : Env) (root : FsPath) : List Frame :=
  match read_dir_frame env root "" 1 with
  | some f => [f]
  | none => []

/-- The full final state of the shared streaming traversal, ghost logs
included: early exit before any listing when the root is no directory or
the depth limit is exactly one, otherwise the drained loop. -/
def runTraversal (env : Env) (root : FsPath) (fuel : Nat) : Option LoopState :=
  let setup := rootSetup env root
  let s0 : LoopState :=
    { visited := setup.2.2, stack := [], out := [], opened := [], log := [] }
  if !setup.1.points_to_directory || env.cli.max_depth == some 1 then
    some s0
  else runLoop env setup.2.1 fuel { s0 with stack := rootStack env root }

/-- Port of `collect_entries_flat` (tree.rs:1853): the flat entry stream
of the HTML renderer.  `run_tree_json` and `run_tree_ndjson` drive the
identical loop and write each entry at the same point, so this is also
the record stream of the JSON and NDJSON renderers. -/
def collect_entries_flat (env : Env) (root : FsPath) (fuel : Nat) :
    Option (List Entry) :=
  let root_entry := Entry.from_meta (rootSetup env root).1 0
  (runTraversal env root fuel).map fun sFinal => root_entry :: sFinal.out.reverse

end Printree

namespace Printree

/-- `u64::saturating_add`. -/
def satAdd (a b : Nat) : Nat := min (a + b) (2 ^ 64 - 1)

/-- Port of `entry_kind_label` (tree.rs:2019). -/
def entry_kind_label : EntryKind → String
  | .file => "file"
  | .dir => "dir"
  | .symlink => "symlink"
  | .unknown => "unknown"

/-- The quoting condition of `csv_escape` (tree.rs:1330). -/
def csvNeedsEscape (value : String) : Bool :=
  value.data.contains ',' || value.data.contains '"' || value.data.contains '\n'

/-- The character loop of `csv_escape`: every internal double quote is
doubled. -/
def csvEscapeChars (cs : List Char) : List Char :=
  cs.flatMap fun c => if c = '"' then ['"', '"'] else [c]

/-- Port of `csv_escape` (tree.rs:1329). -/
def csv_escape (value : String) : String :=
  if csvNeedsEscape value then
    "\"" ++ String.mk (csvEscapeChars value.data) ++ "\""
  else value

/-- Port of `write_csv_entry` (tree.rs:1294): one CSV record (without the
line terminator). -/
def write_csv_entry (e : Entry) : String :=
  csv_escape e.name
    ++ "," ++ csv_escape e.path
    ++ "," ++ Nat.repr e.depth
    ++ "," ++ entry_kind_label e.kind
    ++ "," ++ (match e.size with | some n => Nat.repr n | none => "")
    ++ "," ++ (match e.mtime with | some m => csv_escape m | none => "")
    ++ "," ++ (match e.perm with | some p => csv_escape p | none => "")
    ++ "," ++ (match e.symlink_target with | some t => csv_escape t | none => "")
    ++ "," ++ (if e.loop_detected then "true" else "false")
    ++ "," ++ (match e.error with | some err => csv_escape err | none => "")
    ++ "," ++ (match e.git_status with | some c => String.mk [c] | none => "")

/-- The CSV header row (tree.rs:1559). -/
def csvHeader : String :=
  "name,path,depth,kind,size,mtime,perm,symlink_target,loop_detected,error,git_status"

/-- Outcome of the CSV driver: the emitted lines, a runtime panic
(out-of-bounds index), or exhausted fuel. -/
inductive CsvResult where
  | ok (lines : List String)
  | panic
  | fuelOut
deriving DecidableEq, Repr

/-- Port of the `while` loop of `run_tree_csv` (tree.rs:1598).  The body
as written in the source processes TWO entries per iteration: after the
first child is handled and written, a duplicated block (tree.rs:1621)
immediately reads `frame.entries[idx]` again WITHOUT a bounds check — a
panic when the frame had only one entry left — and calls `handle_entry`
without the `root_guard` argument (as written the call does not
type-check; the missing argument is modelled as `none`).  Only the
second entry's descend decision survives; the first one's is discarded. -/
def csvLoop (env : Env) (root_guard : Option FsPath) :
    Nat → List FsPath → List Frame → List String → CsvResult
  | 0, _, _, _ => .fuelOut
  | fuel + 1, visited, stack, lines =>
    match stack with
    | [] => .ok lines.reverse
    | frame :: rest =>
      if h1 : frame.idx < frame.entries.length then
        let is_lastA := frame.idx + 1 == frame.entries.length
        let metaA := frame.entries.get ⟨frame.idx, h1⟩
        let rA := handle_entry metaA frame.pfx frame.depth is_lastA env.cli visited
          root_guard
        let frameA := { frame with idx := frame.idx + 1 }
        let linesA := write_csv_entry rA.entry :: lines
        if h2 : frameA.idx < frameA.entries.length then
          let is_lastB := frameA.idx + 1 == frameA.entries.length
          let metaB := frameA.entries.get ⟨frameA.idx, h2⟩
          let rB := handle_entry metaB frameA.pfx frameA.depth is_lastB env.cli
            rA.visited none
          let frameB := { frameA with idx := frameA.idx + 1 }
          let linesB := write_csv_entry rB.entry :: linesA
          let stack1 := frameB :: rest
          if rB.descend then
            match read_dir_frame env rB.meta.path rB.childPfx (frame.depth + 1) with
            | some child =>
              csvLoop env root_guard fuel rB.visited (child :: stack1) linesB
            | none => csvLoop env root_guard fuel rB.visited stack1 linesB
          else csvLoop env root_guard fuel rB.visited stack1 linesB
        else .panic
      else csvLoop env root_guard fuel visited rest lines

/-- Port of `run_tree_csv` (tree.rs:1549): header, root record, early
exit on a non-directory root or a depth limit of exactly one, then the
loop. -/
def run_tree_csv (env : Env) (root : FsPath) (fuel : Nat) : CsvResult :=
  let setup := rootSetup env root
  let rootLine := write_csv_entry (Entry.from_meta setup.1 0)
  if !setup.1.points_to_directory || env.cli.max_depth == some 1 then
    .ok [csvHeader, rootLine]
  else
    csvLoop env setup.2.1 fuel setup.2.2 (rootStack env root) [rootLine, csvHeader]

/-- Port of `PlainPending` (tree.rs:149). -/
structure PlainPending where
  entry : Entry
  pfx : String
  is_last : Bool
  total_size : Nat
deriving Repr

/-- `PlainPending::new` (tree.rs:157): the pending directory line starts
with its size erased. -/
def PlainPending.new (entry : Entry) (pfx : String) (is_last : Bool) : PlainPending :=
  { entry := { entry with size := none }, pfx := pfx, is_last := is_last,
    total_size := 0 }

/-- `PlainPending::record_child_size` (tree.rs:167). -/
def PlainPending.record_child_size (p : PlainPending) (child_size : Nat) : PlainPending :=
  { p with total_size := satAdd p.total_size child_size }

/-- Port of `write_plain_entry` (tree.rs:1235) as the emitted text line;
colour escape sequences are the pluggable sink's concern and are not part
of the text. -/
def write_plain_entry (pfx : String) (e : Entry) (is_last : Bool) : String :=
  let connector := if is_last then "└── " else "├── "
  let statusPart :=
    match e.git_status with
    | some s => "[" ++ String.mk [s] ++ "] "
    | none => ""
  let sizePart :=
    match e.size with
    | some n => "[" ++ Nat.repr n ++ "] "
    | none => ""
  let targetPart :=
    match e.symlink_target with
    | some t => " -> " ++ t
    | none => ""
  let loopPart := if e.loop_detected then "  [skipped: circular link]" else ""
  let errPart :=
    match e.error with
    | some err => "  [error: " ++ err ++ "]"
    | none => ""
  pfx ++ connector ++ statusPart ++ sizePart ++ e.name ++ targetPart ++ loopPart ++ errPart

/-- Port of `finalize_plain_entry` (tree.rs:1220): credit the entry's
size to the innermost pending directory, then write its line. -/
def finalize_plain_entry (e : Entry) (pfx : String) (is_last : Bool)
    (pending : List PlainPending) (lines : List String) :
    List PlainPending × List String :=
  let pending1 :=
    match e.size, pending with
    | some size, parent :: restPending =>
      parent.record_child_size size :: restPending
    | _, _ => pending
  (pending1, write_plain_entry pfx e is_last :: lines)

/-- Port of `finalize_pending_dir` (tree.rs:1205): the drained directory
line gets the rolled-up size of its emitted children. -/
def finalize_pending_dir (p : PlainPending) (pending : List PlainPending)
    (lines : List String) : List PlainPending × List String :=
  finalize_plain_entry { p.entry with size := some p.total_size } p.pfx p.is_last
    pending lines

/-- Port of the `while` loop of `run_tree_plain` (tree.rs:1132): the
shared traversal loop with the pending-directory stack for post-order
size rollup (the depth warning is a diagnostic side channel and has no
output effect). -/
def plainLoop (env : Env) (root_guard : Option FsPath) :
    Nat → List FsPath → List Frame → List PlainPending → List String →
    Option (List String)
  | 0, _, _, _, _ => none
  | fuel + 1, visited, stack, pending, lines =>
    match stack with
    | [] => some lines.reverse
    | frame :: rest =>
      if h : frame.idx < frame.entries.length then
        let is_last := frame.idx + 1 == frame.entries.length
        let meta := frame.entries.get ⟨frame.idx, h⟩
        let r := handle_entry meta frame.pfx frame.depth is_last env.cli visited
          root_guard
        let frame1 := { frame with idx := frame.idx + 1 }
        if r.descend then
          let pending_entry := PlainPending.new r.entry frame.pfx is_last
          match read_dir_frame env r.meta.path r.childPfx (frame.depth + 1) with
          | some child =>
            plainLoop env root_guard fuel r.visited (child :: frame1 :: rest)
              (pending_entry :: pending) lines
          | none =>
            let fin := finalize_pending_dir pending_entry pending lines
            plainLoop env root_guard fuel r.visited (frame1 :: rest) fin.1 fin.2
        else
          let fin := finalize_plain_entry r.entry frame.pfx is_last pending lines
          plainLoop env root_guard fuel r.visited (frame1 :: rest) fin.1 fin.2
      else
        match pending with
        | p :: restPending =>
          let fin := finalize_pending_dir p restPending lines
          plainLoop env root_guard fuel visited rest fin.1 fin.2
        | [] => plainLoop env root_guard fuel visited rest pending lines

/-- Port of `run_tree_plain` (tree.rs:1083) as the emitted text lines:
the bolded root path line, early exit on non-directory root or depth
limit one, then the loop. -/
def run_tree_plain (env : Env) (root : FsPath) (fuel : Nat) :
    Option (List String) :=
  let firstLine := pathDisplay root
  let setup := rootSetup env root
  if !setup.1.points_to_directory || env.cli.max_depth == some 1 then
    some [firstLine]
  else
    (plainLoop env setup.2.1 fuel setup.2.2 (rootStack env root) [] []).map
      (firstLine :: ·)

/-- Port of `YamlNode` (tree.rs:172). -/
structure YamlNode where
  entry : Entry
  children : List YamlNode

/-- Sum of the present child sizes with `u64::saturating_add`
(tree.rs:1796). -/
def yamlSizeSum (children : List YamlNode) : Nat :=
  children.foldl
    (fun acc child =>
      match child.entry.size with
      | some s => satAdd acc s
      | none => acc)
    0

/-- True when at least one child carries a size (tree.rs:1797). -/
def yamlHasSizes (children : List YamlNode) : Bool :=
  children.any fun child => child.entry.size.isSome

mutual

/-- Port of `build_yaml_node` (tree.rs:1766), fuel-indexed. -/
def build_yaml_node (env : Env) (root_guard : Option FsPath) :
    Nat → EntryMeta → Nat → List FsPath → Option (YamlNode × List FsPath)
  | 0, _, _, _ => none
  | fuel + 1, meta, depth, visited =>
    let r := handle_entry meta "" depth true env.cli visited root_guard
    if r.descend then
      match build_yaml_children env root_guard fuel r.meta.path (depth + 1)
          r.visited with
      | none => none
      | some (children, visited1) =>
        let entry1 := { r.entry with size := none }
        let entry2 :=
          if yamlHasSizes children then { entry1 with size := some (yamlSizeSum children) }
          else entry1
        some (⟨entry2, children⟩, visited1)
    else some (⟨r.entry, []⟩, r.visited)

/-- Port of `build_yaml_children` (tree.rs:1722), fuel-indexed: list the
parent, then build one node per frame entry in order, threading the
visited set. -/
def build_yaml_children (env : Env) (root_guard : Option FsPath) :
    Nat → FsPath → Nat → List FsPath → Option (List YamlNode × List FsPath)
  | 0, _, _, _ => none
  | fuel + 1, parentPath, depth, visited =>
    match read_dir_frame env parentPath "" depth with
    | none => some ([], visited)
    | some frame => build_yaml_list env root_guard fuel frame.entries frame.depth visited

/-- The `for` loop inside `build_yaml_children` (tree.rs:1746). -/
def build_yaml_list (env : Env) (root_guard : Option FsPath) :
    Nat → List EntryMeta → Nat → List FsPath → Option (List YamlNode × List FsPath)
  | 0, _, _, _ => none
  | _ + 1, [], _, visited => some ([], visited)
  | fuel + 1, m :: ms, depth, visited =>
    match build_yaml_node env root_guard fuel m depth visited with
    | none => none
    | some (node, v1) =>
      match build_yaml_list env root_guard fuel ms depth v1 with
      | none => none
      | some (nodes, v2) => some (node :: nodes, v2)

end

/-- Port of `run_tree_yaml` (tree.rs:1659) up to the in-memory document:
the nested `YamlNode` tree the writer then serializes. -/
def run_tree_yaml_doc (env : Env) (root : FsPath) (fuel : Nat) : Option YamlNode :=
  let setup := rootSetup env root
  let root_entry := Entry.from_meta setup.1 0
  if setup.1.points_to_directory && !(env.cli.max_depth == some 1) then
    match build_yaml_children env setup.2.1 fuel root 1 setup.2.2 with
    | none => none
    | some (children, _) =>
      let root_entry1 :=
        if yamlHasSizes children then { root_entry with size := some (yamlSizeSum children) }
        else { root_entry with size := none }
      some ⟨root_entry1, children⟩
  else some ⟨root_entry, []⟩

end Printree

namespace Printree

/-- Helper lemmas about `handle_entry`.  First: a hit in the visited set
(a directory or a symlink whose canonical path was already entered) is
emitted with the loop flag set, is not descended into, and leaves the
visited set untouched. -/
theorem handle_entry_loop_hit (meta : EntryMeta) (pfx : String) (depth : Nat)
    (is_last : Bool) (cli : Cfg) (visited : List FsPath) (rg : Option FsPath)
    (c : FsPath) (hc : meta.canonical_path = some c)
    (hv : visited.contains c = true)
    (hdir : meta.is_symlink = true ∨ meta.is_directory = true) :
    (handle_entry meta pfx depth is_last cli visited rg).entry.loop_detected = true ∧
    (handle_entry meta pfx depth is_last cli visited rg).descend = false ∧
    (handle_entry meta pfx depth is_last cli visited rg).recorded = none ∧
    (handle_entry meta pfx depth is_last cli visited rg).visited = visited := by
  have hv' : c ∈ visited := by simpa using hv
  rcases hdir with hs | hd
  · rcases hmd : cli.max_depth with _ | maxd <;>
      simp [handle_entry, hs, hc, hv', hmd, Entry.from_meta]
  · by_cases hs : meta.is_symlink
    · rcases hmd : cli.max_depth with _ | maxd <;>
        simp [handle_entry, hs, hc, hv', hmd, Entry.from_meta]
    · rcases hmd : cli.max_depth with _ | maxd <;>
        simp [handle_entry, hs, hd, hc, hv', hmd, Entry.from_meta]

/-- A symlink whose canonical path escapes the root guard is never
descended into and records nothing; when it was an actual descent
candidate (follow-symlinks on, directory target, not a loop hit) it is
annotated with a non-empty error and its loop flag stays off. -/
theorem handle_entry_outside_root (meta : EntryMeta) (pfx : String) (depth : Nat)
    (is_last : Bool) (cli : Cfg) (visited : List FsPath) (rootPath : FsPath)
    (c : FsPath) (hs : meta.is_symlink = true) (hc : meta.canonical_path = some c)
    (hout : path_within_root c rootPath = false) :
    (handle_entry meta pfx depth is_last cli visited (some rootPath)).descend = false ∧
    (handle_entry meta pfx depth is_last cli visited (some rootPath)).recorded = none ∧
    (handle_entry meta pfx depth is_last cli visited (some rootPath)).visited = visited ∧
    (cli.follow_symlinks = true → meta.points_to_directory = true →
      visited.contains c = false →
      (handle_entry meta pfx depth is_last cli visited (some rootPath)).entry.error.isSome = true ∧
      (handle_entry meta pfx depth is_last cli visited (some rootPath)).entry.loop_detected = false ∧
      (handle_entry meta pfx depth is_last cli visited (some rootPath)).meta.loop_detected = false) := by
  by_cases hv : c ∈ visited
  · rcases hmd : cli.max_depth with _ | maxd <;>
      simp [handle_entry, hs, hc, hv, hmd, Entry.from_meta]
  · by_cases hf : cli.follow_symlinks = true ∧ meta.points_to_directory = true
    · rcases hmd : cli.max_depth with _ | maxd <;>
        rcases hme : meta.error with _ | e <;>
        simp [handle_entry, hs, hc, hv, hf, hout, hmd, hme, Entry.from_meta]
    · rcases hmd : cli.max_depth with _ | maxd <;>
        simp [handle_entry, hs, hc, hv, hf, hout, hmd, Entry.from_meta] <;>
        intro h1 h2 <;> exact absurd ⟨h1, h2⟩ hf


theorem handle_entry_insert_cases (meta : EntryMeta) (pfx : String) (depth : Nat)
    (is_last : Bool) (cli : Cfg) (visited : List FsPath) (rg : Option FsPath) :
    ((handle_entry meta pfx depth is_last cli visited rg).recorded = none ∧
      (handle_entry meta pfx depth is_last cli visited rg).visited = visited) ∨
    (∃ c, (handle_entry meta pfx depth is_last cli visited rg).recorded = some c ∧
      (handle_entry meta pfx depth is_last cli visited rg).visited = c :: visited ∧
      visited.contains c = false ∧ meta.canonical_path = some c ∧
      (handle_entry meta pfx depth is_last cli visited rg).descend = true) := by
  by_cases hs : meta.is_symlink = true
  · rcases hc : meta.canonical_path with _ | c
    · left
      rcases hmd : cli.max_depth with _ | maxd <;> simp [handle_entry, hs, hc, hmd]
    · by_cases hv : c ∈ visited
      · left
        rcases hmd : cli.max_depth with _ | maxd <;> simp [handle_entry, hs, hc, hv, hmd]
      · by_cases hf : cli.follow_symlinks = true ∧ meta.points_to_directory = true
        · rcases hrg : rg with _ | rootPath
          · rcases hmd : cli.max_depth with _ | maxd
            · right
              exact ⟨c, by simp [handle_entry, hs, hc, hv, hf, hmd, hf.2]⟩
            · by_cases hdep : maxd ≤ depth
              · left
                simp [handle_entry, hs, hc, hv, hf, hmd, hdep]
              · right
                exact ⟨c, by simp [handle_entry, hs, hc, hv, hf, hmd, hdep, hf.2]⟩
          · by_cases hin : path_within_root c rootPath = false
            · left
              rcases hmd : cli.max_depth with _ | maxd <;>
                rcases hme : meta.error with _ | e <;>
                simp [handle_entry, hs, hc, hv, hf, hrg, hin, hmd, hme]
            · rcases hmd : cli.max_depth with _ | maxd
              · right
                exact ⟨c, by simp [handle_entry, hs, hc, hv, hf, hrg, hin, hmd, hf.2]⟩
              · by_cases hdep : maxd ≤ depth
                · left
                  simp [handle_entry, hs, hc, hv, hf, hrg, hin, hmd, hdep]
                · right
                  exact ⟨c, by simp [handle_entry, hs, hc, hv, hf, hrg, hin, hmd, hdep, hf.2]⟩
        · left
          rcases hmd : cli.max_depth with _ | maxd <;>
            simp [handle_entry, hs, hc, hv, hf, hmd]
  · by_cases hd : meta.is_directory = true
    · rcases hc : meta.canonical_path with _ | c
      · left
        rcases hmd : cli.max_depth with _ | maxd <;> simp [handle_entry, hs, hd, hc, hmd]
      · by_cases hv : c ∈ visited
        · left
          rcases hmd : cli.max_depth with _ | maxd <;> simp [handle_entry, hs, hd, hc, hv, hmd]
        · have hptd : meta.points_to_directory = true := by
            simp [EntryMeta.points_to_directory, hs, hd]
          rcases hrg : rg with _ | rootPath
          · rcases hmd : cli.max_depth with _ | maxd
            · right
              exact ⟨c, by simp [handle_entry, hs, hd, hc, hv, hmd, hptd]⟩
            · by_cases hdep : maxd ≤ depth
              · left
                simp [handle_entry, hs, hd, hc, hv, hmd, hdep]
              · right
                exact ⟨c, by simp [handle_entry, hs, hd, hc, hv, hmd, hdep, hptd]⟩
          · by_cases hin : path_within_root c rootPath = false
            · left
              rcases hmd : cli.max_depth with _ | maxd <;>
                rcases hme : meta.error with _ | e <;>
                simp [handle_entry, hs, hd, hc, hv, hrg, hin, hmd, hme]
            · rcases hmd : cli.max_depth with _ | maxd
              · right
                exact ⟨c, by simp [handle_entry, hs, hd, hc, hv, hrg, hin, hmd, hptd]⟩
              · by_cases hdep : maxd ≤ depth
                · left
                  simp [handle_entry, hs, hd, hc, hv, hrg, hin, hmd, hdep]
                · right
                  exact ⟨c, by simp [handle_entry, hs, hd, hc, hv, hrg, hin, hmd, hdep, hptd]⟩
    · left
      rcases hmd : cli.max_depth with _ | maxd <;> simp [handle_entry, hs, hd, hmd]




theorem handle_entry_descend_shape (meta : EntryMeta) (pfx : String) (depth : Nat)
    (is_last : Bool) (cli : Cfg) (visited : List FsPath) (rg : Option FsPath)
    (hdes : (handle_entry meta pfx depth is_last cli visited rg).descend = true) :
    (∃ c, meta.canonical_path = some c ∧
      (handle_entry meta pfx depth is_last cli visited rg).recorded = some c) ∨
    (meta.canonical_path = none ∧ meta.is_symlink = false ∧
      meta.is_directory = true ∧
      (handle_entry meta pfx depth is_last cli visited rg).recorded = none) := by
  by_cases hs : meta.is_symlink = true
  · rcases hc : meta.canonical_path with _ | c
    · rcases hmd : cli.max_depth with _ | maxd <;>
        simp [handle_entry, hs, hc, hmd] at hdes
    · by_cases hv : c ∈ visited
      · rcases hmd : cli.max_depth with _ | maxd <;>
          simp [handle_entry, hs, hc, hv, hmd] at hdes
      · by_cases hf : cli.follow_symlinks = true ∧ meta.points_to_directory = true
        · rcases hrg : rg with _ | rootPath
          · left
            refine ⟨c, rfl, ?_⟩
            rcases hmd : cli.max_depth with _ | maxd
            · simp [handle_entry, hs, hc, hv, hf, hmd, hf.2]
            · by_cases hdep : maxd ≤ depth
              · simp [handle_entry, hs, hc, hv, hf, hmd, hdep] at hdes
              · simp [handle_entry, hs, hc, hv, hf, hmd, hdep, hf.2]
          · by_cases hin : path_within_root c rootPath = false
            · rcases hmd : cli.max_depth with _ | maxd <;>
                rcases hme : meta.error with _ | e <;>
                simp [handle_entry, hs, hc, hv, hf, hrg, hin, hmd, hme] at hdes
            · left
              refine ⟨c, rfl, ?_⟩
              rcases hmd : cli.max_depth with _ | maxd
              · simp [handle_entry, hs, hc, hv, hf, hrg, hin, hmd, hf.2]
              · by_cases hdep : maxd ≤ depth
                · simp [handle_entry, hs, hc, hv, hf, hrg, hin, hmd, hdep] at hdes
                · simp [handle_entry, hs, hc, hv, hf, hrg, hin, hmd, hdep, hf.2]
        · rcases hmd : cli.max_depth with _ | maxd <;>
            simp [handle_entry, hs, hc, hv, hf, hmd] at hdes
  · by_cases hd : meta.is_directory = true
    · have hptd : meta.points_to_directory = true := by
        simp [EntryMeta.points_to_directory, hs, hd]
      rcases hc : meta.canonical_path with _ | c
      · right
        refine ⟨rfl, by simpa using hs, hd, ?_⟩
        rcases hmd : cli.max_depth with _ | maxd
        · simp [handle_entry, hs, hd, hc, hmd]
        · by_cases hdep : maxd ≤ depth
          · simp [handle_entry, hs, hd, hc, hmd, hdep] at hdes
          · simp [handle_entry, hs, hd, hc, hmd, hdep]
      · by_cases hv : c ∈ visited
        · rcases hmd : cli.max_depth with _ | maxd <;>
            simp [handle_entry, hs, hd, hc, hv, hmd] at hdes
        · rcases hrg : rg with _ | rootPath
          · left
            refine ⟨c, rfl, ?_⟩
            rcases hmd : cli.max_depth with _ | maxd
            · simp [handle_entry, hs, hd, hc, hv, hmd, hptd]
            · by_cases hdep : maxd ≤ depth
              · simp [handle_entry, hs, hd, hc, hv, hmd, hdep] at hdes
              · simp [handle_entry, hs, hd, hc, hv, hmd, hdep, hptd]
          · by_cases hin : path_within_root c rootPath = false
            · rcases hmd : cli.max_depth with _ | maxd <;>
                rcases hme : meta.error with _ | e <;>
                simp [handle_entry, hs, hd, hc, hv, hrg, hin, hmd, hme] at hdes
            · left
              refine ⟨c, rfl, ?_⟩
              rcases hmd : cli.max_depth with _ | maxd
              · simp [handle_entry, hs, hd, hc, hv, hrg, hin, hmd, hptd]
              · by_cases hdep : maxd ≤ depth
                · simp [handle_entry, hs, hd, hc, hv, hrg, hin, hmd, hdep] at hdes
                · simp [handle_entry, hs, hd, hc, hv, hrg, hin, hmd, hdep, hptd]
    · rcases hmd : cli.max_depth with _ | maxd <;>
        simp [handle_entry, hs, hd, hmd] at hdes

theorem handle_entry_meta_shape (meta : EntryMeta) (pfx : String) (depth : Nat)
    (is_last : Bool) (cli : Cfg) (visited : List FsPath) (rg : Option FsPath) :
    ∃ ld er, (handle_entry meta pfx depth is_last cli visited rg).meta =
      { meta with loop_detected := ld, error := er } := by
  by_cases hs : meta.is_symlink = true
  · rcases hc : meta.canonical_path with _ | c
    · exact ⟨false, meta.error, by
        rcases hmd : cli.max_depth with _ | maxd <;> simp [handle_entry, hs, hc, hmd]⟩
    · by_cases hv : c ∈ visited
      · exact ⟨true, meta.error, by
          rcases hmd : cli.max_depth with _ | maxd <;> simp [handle_entry, hs, hc, hv, hmd]⟩
      · by_cases hf : cli.follow_symlinks = true ∧ meta.points_to_directory = true
        · rcases hrg : rg with _ | rootPath
          · refine ⟨false, meta.error, ?_⟩
            rcases hmd : cli.max_depth with _ | maxd
            · simp [handle_entry, hs, hc, hv, hf, hmd]
            · by_cases hdep : maxd ≤ depth <;>
                simp [handle_entry, hs, hc, hv, hf, hmd, hdep]
          · by_cases hin : path_within_root c rootPath = false
            · rcases hme : meta.error with _ | e
              · refine ⟨false, some "symlink target outside root", ?_⟩
                rcases hmd : cli.max_depth with _ | maxd <;>
                  simp [handle_entry, hs, hc, hv, hf, hrg, hin, hmd, hme]
              · refine ⟨false, some e, ?_⟩
                rcases hmd : cli.max_depth with _ | maxd <;>
                  simp [handle_entry, hs, hc, hv, hf, hrg, hin, hmd, hme]
            · refine ⟨false, meta.error, ?_⟩
              rcases hmd : cli.max_depth with _ | maxd
              · simp [handle_entry, hs, hc, hv, hf, hrg, hin, hmd]
              · by_cases hdep : maxd ≤ depth <;>
                  simp [handle_entry, hs, hc, hv, hf, hrg, hin, hmd, hdep]
        · exact ⟨false, meta.error, by
            rcases hmd : cli.max_depth with _ | maxd <;>
              simp [handle_entry, hs, hc, hv, hf, hmd]⟩
  · by_cases hd : meta.is_directory = true
    · have hptd : meta.points_to_directory = true := by
        simp [EntryMeta.points_to_directory, hs, hd]
      rcases hc : meta.canonical_path with _ | c
      · refine ⟨false, meta.error, ?_⟩
        rcases hmd : cli.max_depth with _ | maxd
        · simp [handle_entry, hs, hd, hc, hmd, hptd]
        · by_cases hdep : maxd ≤ depth <;>
            simp [handle_entry, hs, hd, hc, hmd, hdep, hptd]
      · by_cases hv : c ∈ visited
        · exact ⟨true, meta.error, by
            rcases hmd : cli.max_depth with _ | maxd <;>
              simp [handle_entry, hs, hd, hc, hv, hmd]⟩
        · rcases hrg : rg with _ | rootPath
          · refine ⟨false, meta.error, ?_⟩
            rcases hmd : cli.max_depth with _ | maxd
            · simp [handle_entry, hs, hd, hc, hv, hmd, hptd]
            · by_cases hdep : maxd ≤ depth <;>
                simp [handle_entry, hs, hd, hc, hv, hmd, hdep, hptd]
          · by_cases hin : path_within_root c rootPath = false
            · rcases hme : meta.error with _ | e
              · refine ⟨false, some "symlink target outside root", ?_⟩
                rcases hmd : cli.max_depth with _ | maxd <;>
                  simp [handle_entry, hs, hd, hc, hv, hrg, hin, hmd, hme]
              · refine ⟨false, some e, ?_⟩
                rcases hmd : cli.max_depth with _ | maxd <;>
                  simp [handle_entry, hs, hd, hc, hv, hrg, hin, hmd, hme]
            · refine ⟨false, meta.error, ?_⟩
              rcases hmd : cli.max_depth with _ | maxd
              · simp [handle_entry, hs, hd, hc, hv, hrg, hin, hmd, hptd]
              · by_cases hdep : maxd ≤ depth <;>
                  simp [handle_entry, hs, hd, hc, hv, hrg, hin, hmd, hdep, hptd]
    · exact ⟨false, meta.error, by
        rcases hmd : cli.max_depth with _ | maxd <;>
          simp [handle_entry, hs, hd, hmd]⟩


/-- The handle result of the cursor entry of frame `f` in state `s`. -/
def stepHandle (env : Env) (rg : Option FsPath) (s : LoopState) (f : Frame)
    (h : f.idx < f.entries.length) : HandleResult :=
  handle_entry (f.entries.get ⟨f.idx, h⟩) f.pfx f.depth
    (f.idx + 1 == f.entries.length) env.cli s.visited rg

/-- The loop state after processing the cursor entry (before any push). -/
def stepNextState (env : Env) (rg : Option FsPath) (s : LoopState) (f : Frame)
    (rest : List Frame) (h : f.idx < f.entries.length) : LoopState :=
  let r := stepHandle env rg s f h
  { visited := r.visited
    stack := { f with idx := f.idx + 1 } :: rest
    out := r.entry :: s.out
    opened := (r.recorded.map (· :: s.opened)).getD s.opened
    log := ⟨r.meta, r.entry, r.descend⟩ :: s.log }

/-- Exhaustive description of one loop iteration: the loop is done on an
empty stack, pops an exhausted frame, and otherwise processes the cursor
entry, pushing a child frame exactly when the decision was to descend
and the child listing yields a frame. -/
theorem loopStep_shape (env : Env) (rg : Option FsPath) (s : LoopState) :
    (s.stack = [] ∧ loopStep env rg s = .done s) ∨
    (∃ f rest, s.stack = f :: rest ∧ f.entries.length ≤ f.idx ∧
      loopStep env rg s = .next { s with stack := rest }) ∨
    (∃ f rest, ∃ h : f.idx < f.entries.length, s.stack = f :: rest ∧
      (((stepHandle env rg s f h).descend = true ∧
        ∃ child, read_dir_frame env (stepHandle env rg s f h).meta.path
            (stepHandle env rg s f h).childPfx (f.depth + 1) = some child ∧
          loopStep env rg s = .next { stepNextState env rg s f rest h with
            stack := child :: (stepNextState env rg s f rest h).stack }) ∨
       (loopStep env rg s = .next (stepNextState env rg s f rest h) ∧
         ((stepHandle env rg s f h).descend = false ∨
          read_dir_frame env (stepHandle env rg s f h).meta.path
            (stepHandle env rg s f h).childPfx (f.depth + 1) = none)))) := by
  rcases hst : s.stack with _ | ⟨f, rest⟩
  · left
    exact ⟨rfl, by simp [loopStep, hst]⟩
  · right
    by_cases hlt : f.idx < f.entries.length
    · right
      refine ⟨f, rest, hlt, rfl, ?_⟩
      by_cases hdes : (stepHandle env rg s f hlt).descend = true
      · rcases hrd : read_dir_frame env (stepHandle env rg s f hlt).meta.path
            (stepHandle env rg s f hlt).childPfx (f.depth + 1) with _ | child
        · right
          refine ⟨?_, Or.inr rfl⟩
          simp only [loopStep, hst, hlt, dif_pos]
          simp only [stepHandle, List.get_eq_getElem] at hdes hrd
          simp [hdes, hrd, stepNextState, stepHandle, List.get_eq_getElem]
        · left
          refine ⟨hdes, child, rfl, ?_⟩
          simp only [loopStep, hst, hlt, dif_pos]
          simp only [stepHandle, List.get_eq_getElem] at hdes hrd
          simp [hdes, hrd, stepNextState, stepHandle, List.get_eq_getElem]
      · right
        refine ⟨?_, Or.inl (by simpa using hdes)⟩
        simp only [loopStep, hst, hlt, dif_pos]
        simp only [stepHandle, List.get_eq_getElem] at hdes
        simp [hdes, stepNextState, stepHandle, List.get_eq_getElem]
    · left
      refine ⟨f, rest, rfl, by omega, ?_⟩
      simp [loopStep, hst, hlt]



theorem charListCompare_trans (x : List Char) : ∀ (y z : List Char),
    charListCompare x y ≠ .gt → charListCompare y z ≠ .gt →
    charListCompare x z ≠ .gt := by
  induction x with
  | nil =>
    intro y z _ _
    cases z <;> simp [charListCompare]
  | cons a as ih =>
    intro y z h1 h2
    cases y with
    | nil => simp [charListCompare] at h1
    | cons b bs =>
      cases z with
      | nil => simp [charListCompare] at h2
      | cons c cs =>
        simp only [charListCompare] at h1 h2 ⊢
        rcases hab : compare a.toNat b.toNat with _ | _ | _ <;>
          rcases hbc : compare b.toNat c.toNat with _ | _ | _ <;>
          simp only [hab, hbc, Ordering.then] at h1 h2 ⊢
        · have hac : compare a.toNat c.toNat = .lt := by
            rw [Nat.compare_eq_lt] at hab hbc ⊢
            omega
          simp [hac, Ordering.then]
        · have hac : compare a.toNat c.toNat = .lt := by
            rw [Nat.compare_eq_lt] at hab
            rw [Nat.compare_eq_eq] at hbc
            rw [Nat.compare_eq_lt]
            omega
          simp [hac, Ordering.then]
        · exact absurd h2 (by simp)
        · have hac : compare a.toNat c.toNat = .lt := by
            rw [Nat.compare_eq_eq] at hab
            rw [Nat.compare_eq_lt] at hbc
            rw [Nat.compare_eq_lt]
            omega
          simp [hac, Ordering.then]
        · have hac : compare a.toNat c.toNat = .eq := by
            rw [Nat.compare_eq_eq] at hab hbc ⊢
            omega
          simp only [hac, Ordering.then]
          exact ih bs cs h1 h2
        · exact absurd h2 (by simp)
        · exact absurd h1 (by simp)
        · exact absurd h1 (by simp)
        · exact absurd h1 (by simp)

theorem charListCompare_total (x : List Char) : ∀ (y : List Char),
    charListCompare x y ≠ .gt ∨ charListCompare y x ≠ .gt := by
  induction x with
  | nil =>
    intro y
    left
    cases y <;> simp [charListCompare]
  | cons a as ih =>
    intro y
    cases y with
    | nil => right; simp [charListCompare]
    | cons b bs =>
      simp only [charListCompare]
      rcases hab : compare a.toNat b.toNat with _ | _ | _
      · left
        have hba : compare b.toNat a.toNat = .gt := by
          rw [Nat.compare_eq_lt] at hab
          rw [Nat.compare_eq_gt]
          omega
        simp [hab, Ordering.then]
      · have hba : compare b.toNat a.toNat = .eq := by
          rw [Nat.compare_eq_eq] at hab ⊢
          omega
        rcases ih bs with h | h
        · left
          simp [hab, Ordering.then, h]
        · right
          simp [hba, Ordering.then, h]
      · right
        have hba : compare b.toNat a.toNat = .lt := by
          rw [Nat.compare_eq_gt] at hab
          rw [Nat.compare_eq_lt]
          omega
        simp [hba, Ordering.then]

theorem dirsFirstCmp_trans (a b c : EntryMeta)
    (h1 : dirsFirstCmp a b ≠ .gt) (h2 : dirsFirstCmp b c ≠ .gt) :
    dirsFirstCmp a c ≠ .gt := by
  rcases hpa : a.points_to_directory with _ | _ <;>
    rcases hpb : b.points_to_directory with _ | _ <;>
    rcases hpc : c.points_to_directory with _ | _ <;>
    simp only [dirsFirstCmp, nameCmp, osStrCompare, hpa, hpb, hpc, boolCompare,
      Ordering.then] at h1 h2 ⊢ <;>
    first
    | exact charListCompare_trans _ _ _ h1 h2
    | exact h1
    | exact h2
    | trivial

theorem dirsFirstCmp_total (a b : EntryMeta) :
    dirsFirstCmp a b ≠ .gt ∨ dirsFirstCmp b a ≠ .gt := by
  rcases hpa : a.points_to_directory with _ | _ <;>
    rcases hpb : b.points_to_directory with _ | _ <;>
    simp only [dirsFirstCmp, nameCmp, osStrCompare, hpa, hpb, boolCompare,
      Ordering.then] <;>
    first
    | exact charListCompare_total _ _
    | (left ; trivial)
    | (right ; trivial)




theorem ordering_beq_gt_iff (o : Ordering) :
    (o == Ordering.gt) = false ↔ o ≠ Ordering.gt := by
  cases o <;> decide

theorem insertByCmp_perm (cmp : EntryMeta → EntryMeta → Ordering) (a : EntryMeta) :
    ∀ l : List EntryMeta, (insertByCmp cmp a l).Perm (a :: l) := by
  intro l
  induction l with
  | nil => simp [insertByCmp]
  | cons b bs ih =>
    by_cases h : cmp a b = Ordering.gt
    · simp only [insertByCmp, if_pos h]
      exact (ih.cons b).trans (List.Perm.swap a b bs)
    · simp [insertByCmp, if_neg h]

theorem sortByCmp_perm (cmp : EntryMeta → EntryMeta → Ordering) :
    ∀ l : List EntryMeta, (sortByCmp cmp l).Perm l := by
  intro l
  induction l with
  | nil => simp [sortByCmp]
  | cons a rest ih =>
    exact (insertByCmp_perm cmp a (sortByCmp cmp rest)).trans (ih.cons a)

theorem insertByCmp_sorted (cmp : EntryMeta → EntryMeta → Ordering)
    (htrans : ∀ x y z, cmp x y ≠ .gt → cmp y z ≠ .gt → cmp x z ≠ .gt)
    (htotal : ∀ x y, cmp x y ≠ .gt ∨ cmp y x ≠ .gt) (a : EntryMeta) :
    ∀ l : List EntryMeta, l.Pairwise (fun x y => cmp x y ≠ .gt) →
      (insertByCmp cmp a l).Pairwise (fun x y => cmp x y ≠ .gt) := by
  intro l
  induction l with
  | nil =>
    intro _
    simp [insertByCmp]
  | cons b bs ih =>
    intro hp
    rw [List.pairwise_cons] at hp
    by_cases h : cmp a b = Ordering.gt
    · simp only [insertByCmp, if_pos h]
      rw [List.pairwise_cons]
      have hba : cmp b a ≠ .gt := by
        rcases htotal a b with hab | hba
        · exact absurd h hab
        · exact hba
      refine ⟨?_, ih hp.2⟩
      intro x hx
      have hx2 := (insertByCmp_perm cmp a bs).mem_iff.mp hx
      rcases List.mem_cons.mp hx2 with rfl | hx3
      · exact hba
      · exact hp.1 x hx3
    · simp only [insertByCmp, if_neg h]
      rw [List.pairwise_cons]
      refine ⟨?_, List.pairwise_cons.mpr hp⟩
      intro x hx
      rcases List.mem_cons.mp hx with rfl | hx2
      · exact h
      · exact htrans a b x h (hp.1 x hx2)

theorem sortByCmp_sorted (cmp : EntryMeta → EntryMeta → Ordering)
    (htrans : ∀ x y z, cmp x y ≠ .gt → cmp y z ≠ .gt → cmp x z ≠ .gt)
    (htotal : ∀ x y, cmp x y ≠ .gt ∨ cmp y x ≠ .gt) :
    ∀ l : List EntryMeta, (sortByCmp cmp l).Pairwise (fun x y => cmp x y ≠ .gt) := by
  intro l
  induction l with
  | nil => simp [sortByCmp]
  | cons a rest ih =>
    exact insertByCmp_sorted cmp htrans htotal a (sortByCmp cmp rest) ih

theorem sortByCmp_dirsFirst_sorted (l : List EntryMeta) :
    (sortByCmp dirsFirstCmp l).Pairwise (fun a b => dirsFirstCmp a b ≠ .gt) :=
  sortByCmp_sorted dirsFirstCmp dirsFirstCmp_trans dirsFirstCmp_total l



/-! Concrete filesystem fixtures used by the witnesses and
counterexamples. -/

/-- Metadata of an ordinary directory. -/
def mdDir : Metadata := ⟨FKind.dir, 0, some 100, 16877⟩

/-- Metadata of a regular file of the given size. -/
def mdFile (n : Nat) : Metadata := ⟨FKind.file, n, some 100, 33188⟩

/-- Symlink-aware metadata of a symlink. -/
def mdLink : Metadata := ⟨FKind.symlink, 0, some 100, 41471⟩

/-- A root directory `r` holding two plain files `a` and `b`. -/
def fsTwoFiles : FileSystem :=
  { symlinkMetadata := fun p =>
      if p = ["r"] then .ok mdDir
      else if p = ["r", "a"] then .ok (mdFile 10)
      else if p = ["r", "b"] then .ok (mdFile 20)
      else .error "missing"
    metadata := fun p =>
      if p = ["r"] then .ok mdDir
      else if p = ["r", "a"] then .ok (mdFile 10)
      else if p = ["r", "b"] then .ok (mdFile 20)
      else .error "missing"
    canonicalize := fun p => some p
    readLink := fun _ => none
    readDir := fun p =>
      if p = ["r"] then some [⟨"a", .ok FKind.file⟩, ⟨"b", .ok FKind.file⟩]
      else none }

/-- A root directory `r` whose only entry is a self-referential symlink
`link` with canonical target `r` itself (the `link -> .` scenario). -/
def fsCycle : FileSystem :=
  { symlinkMetadata := fun p =>
      if p = ["r"] then .ok mdDir
      else if p = ["r", "link"] then .ok mdLink
      else .error "missing"
    metadata := fun p =>
      if p = ["r"] then .ok mdDir
      else if p = ["r", "link"] then .ok mdDir
      else .error "missing"
    canonicalize := fun _ => some ["r"]
    readLink := fun p => if p = ["r", "link"] then some ["r"] else none
    readDir := fun p =>
      if p = ["r"] then some [⟨"link", .ok FKind.symlink⟩]
      else if p = ["r", "link"] then some [⟨"link", .ok FKind.symlink⟩]
      else none }

/-- A root directory `r` whose only entry is a symlink `esc` pointing at
the directory `outside`, which is not inside the scan root. -/
def fsEscape : FileSystem :=
  { symlinkMetadata := fun p =>
      if p = ["r"] then .ok mdDir
      else if p = ["r", "esc"] then .ok mdLink
      else if p = ["outside"] then .ok mdDir
      else .error "missing"
    metadata := fun p =>
      if p = ["r"] then .ok mdDir
      else if p = ["r", "esc"] then .ok mdDir
      else if p = ["outside"] then .ok mdDir
      else .error "missing"
    canonicalize := fun p => if p = ["r", "esc"] then some ["outside"] else some p
    readLink := fun p => if p = ["r", "esc"] then some ["outside"] else none
    readDir := fun p =>
      if p = ["r"] then some [⟨"esc", .ok FKind.symlink⟩]
      else if p = ["outside"] ∨ p = ["r", "esc"] then some [⟨"x", .ok FKind.file⟩]
      else none }

/-- A root directory `r` with a 2 MiB file `big` and a 10-byte file
`small` (the size-filter scenario). -/
def fsSizes : FileSystem :=
  { symlinkMetadata := fun p =>
      if p = ["r"] then .ok mdDir
      else if p = ["r", "big"] then .ok (mdFile 2097152)
      else if p = ["r", "small"] then .ok (mdFile 10)
      else .error "missing"
    metadata := fun p =>
      if p = ["r"] then .ok mdDir
      else if p = ["r", "big"] then .ok (mdFile 2097152)
      else if p = ["r", "small"] then .ok (mdFile 10)
      else .error "missing"
    canonicalize := fun p => some p
    readLink := fun _ => none
    readDir := fun p =>
      if p = ["r"] then some [⟨"big", .ok FKind.file⟩, ⟨"small", .ok FKind.file⟩]
      else none }

/-- A root directory `r` with a subdirectory `a` (holding one file `f`)
and a file `b`. -/
def fsDirFile : FileSystem :=
  { symlinkMetadata := fun p =>
      if p = ["r"] then .ok mdDir
      else if p = ["r", "a"] then .ok mdDir
      else if p = ["r", "a", "f"] then .ok (mdFile 5)
      else if p = ["r", "b"] then .ok (mdFile 7)
      else .error "missing"
    metadata := fun p =>
      if p = ["r"] then .ok mdDir
      else if p = ["r", "a"] then .ok mdDir
      else if p = ["r", "a", "f"] then .ok (mdFile 5)
      else if p = ["r", "b"] then .ok (mdFile 7)
      else .error "missing"
    canonicalize := fun p => some p
    readLink := fun _ => none
    readDir := fun p =>
      if p = ["r"] then some [⟨"a", .ok FKind.dir⟩, ⟨"b", .ok FKind.file⟩]
      else if p = ["r", "a"] then some [⟨"f", .ok FKind.file⟩]
      else none }

/-- A root directory `r` listing two plain files in the platform
enumeration order `b`, `a` (names out of lexicographic order). -/
def fsUnsorted : FileSystem :=
  { symlinkMetadata := fun p =>
      if p = ["r"] then .ok mdDir
      else if p = ["r", "b"] then .ok (mdFile 1)
      else if p = ["r", "a"] then .ok (mdFile 2)
      else .error "missing"
    metadata := fun p =>
      if p = ["r"] then .ok mdDir
      else if p = ["r", "b"] then .ok (mdFile 1)
      else if p = ["r", "a"] then .ok (mdFile 2)
      else .error "missing"
    canonicalize := fun p => some p
    readLink := fun _ => none
    readDir := fun p =>
      if p = ["r"] then some [⟨"b", .ok FKind.file⟩, ⟨"a", .ok FKind.file⟩]
      else none }

/-- The empty filter bundle over root `r`. -/
def filtersNone : Filters := ⟨["r"], .name, none, none, none, none⟩

/-- Baseline configuration: no depth limit, no hidden files, no symlink
following, no sorting. -/
def cfgBase : Cfg := ⟨none, false, false, .nosort, false, [], .name⟩

/-- Baseline configuration with follow-symlinks enabled. -/
def cfgFollow : Cfg := { cfgBase with follow_symlinks := true }

/-- Baseline configuration with a maximum depth of exactly one. -/
def cfgDepth1 : Cfg := { cfgBase with max_depth := some 1 }

/-- Baseline configuration with dirs-first enabled (and no sort). -/
def cfgDirsFirst : Cfg := { cfgBase with dirs_first := true }

/-- Environment builder: single worker, in-order arrival, no patterns,
no git capability. -/
def mkEnv (fs : FileSystem) (cfg : Cfg) (filters : Filters) : Env :=
  ⟨fs, cfg, none, none, filters, none, ⟨1⟩, fun _ => [0]⟩



/-- C9: when the configured maximum depth is exactly 1, every driver
emits only the root record and never lists the root directory: the flat
(HTML/JSON/NDJSON) stream is the root entry alone, the plain renderer
prints only the root path line, the CSV renderer prints only the header
and the root record, and the YAML document is the root node without
children. -/
theorem claim_C9 (env : Env) (root : FsPath) (fuel : Nat)
    (h : env.cli.max_depth = some 1) :
    collect_entries_flat env root fuel =
      some [Entry.from_meta (rootSetup env root).1 0] ∧
    run_tree_plain env root fuel = some [pathDisplay root] ∧
    run_tree_csv env root fuel =
      .ok [csvHeader, write_csv_entry (Entry.from_meta (rootSetup env root).1 0)] ∧
    run_tree_yaml_doc env root fuel =
      some ⟨Entry.from_meta (rootSetup env root).1 0, []⟩ := by
  refine ⟨?_, ?_, ?_, ?_⟩ <;>
    simp [collect_entries_flat, run_tree_plain, run_tree_csv, run_tree_yaml_doc,
      runTraversal, h]

/-- Witness for C9 at a concrete filesystem: a root with two children,
depth limit 1, yields exactly the root record in every format. -/
theorem claim_C9_witness :
    collect_entries_flat (mkEnv fsTwoFiles cfgDepth1 filtersNone) ["r"] 100 =
      some [Entry.from_meta (rootSetup (mkEnv fsTwoFiles cfgDepth1 filtersNone) ["r"]).1 0] ∧
    run_tree_plain (mkEnv fsTwoFiles cfgDepth1 filtersNone) ["r"] 100 = some ["r"] :=
  ⟨(claim_C9 (mkEnv fsTwoFiles cfgDepth1 filtersNone) ["r"] 100 rfl).1,
   (claim_C9 (mkEnv fsTwoFiles cfgDepth1 filtersNone) ["r"] 100 rfl).2.1⟩

/-- C3 (bug evidence): concurrent resolution appends worker chunks in
mpsc ARRIVAL order, not submission order.  With two seeds and two
workers, the arrival order in which the second chunk's message lands
first yields the reversed sequence, different from sequential resolution
with one worker, though the same multiset. -/
theorem claim_C3 :
    build_entry_metas fsUnsorted
        [⟨["r", "b"], "b", some FKind.file, none⟩,
         ⟨["r", "a"], "a", some FKind.file, none⟩] ⟨2⟩ [1, 0] ≠
      build_entry_metas fsUnsorted
        [⟨["r", "b"], "b", some FKind.file, none⟩,
         ⟨["r", "a"], "a", some FKind.file, none⟩] ⟨1⟩ [0, 1] ∧
    (build_entry_metas fsUnsorted
        [⟨["r", "b"], "b", some FKind.file, none⟩,
         ⟨["r", "a"], "a", some FKind.file, none⟩] ⟨2⟩ [1, 0]).map EntryMeta.name =
      ["a", "b"] ∧
    (build_entry_metas fsUnsorted
        [⟨["r", "b"], "b", some FKind.file, none⟩,
         ⟨["r", "a"], "a", some FKind.file, none⟩] ⟨1⟩ [0, 1]).map EntryMeta.name =
      ["b", "a"] ∧
    (build_entry_metas fsUnsorted
        [⟨["r", "b"], "b", some FKind.file, none⟩,
         ⟨["r", "a"], "a", some FKind.file, none⟩] ⟨2⟩ [1, 0]).Perm
      (build_entry_metas fsUnsorted
        [⟨["r", "b"], "b", some FKind.file, none⟩,
         ⟨["r", "a"], "a", some FKind.file, none⟩] ⟨1⟩ [0, 1]) := by
  refine ⟨by decide, by decide, by decide, by decide⟩




/-- C4 (bug evidence): the CSV driver's loop body processes two entries
per iteration.  On a root with subdirectory `a` (one visible child `f`)
and file `b`, the CSV output contains no record for `f` — the first
entry's descend decision is discarded, so `a` is never descended into —
while the flat stream of the same traversal emits `f`; and on a root
whose frame holds a single entry, the second block's unchecked
`frame.entries[idx]` access panics. -/
theorem claim_C4 :
    run_tree_csv (mkEnv fsDirFile cfgBase filtersNone) ["r"] 100 =
      CsvResult.ok
        ["name,path,depth,kind,size,mtime,perm,symlink_target,loop_detected,error,git_status",
         "r,r,0,dir,0,100,40755,,false,,",
         "a,r/a,1,dir,0,100,40755,,false,,",
         "b,r/b,1,file,7,100,100644,,false,,"] ∧
    (collect_entries_flat (mkEnv fsDirFile cfgBase filtersNone) ["r"] 100).map
        (List.map Entry.name) = some ["r", "a", "f", "b"] ∧
    run_tree_csv (mkEnv fsCycle cfgBase filtersNone) ["r"] 100 = CsvResult.panic := by
  refine ⟨by decide, by decide, by decide⟩

/-- C6 counterexample: with dirs-first enabled and NO sort configured,
a directory listing two plain files in platform enumeration order
`b`, `a` is emitted as `a`, `b` — the dirs-first comparator tie-breaks
by byte name, so platform enumeration order is not preserved within the
non-directory partition, contrary to the claim. -/
theorem claim_C6_counterexample :
    (mkEnv fsUnsorted cfgDirsFirst filtersNone).cli.sort = SortMode.nosort ∧
    (mkEnv fsUnsorted cfgDirsFirst filtersNone).cli.dirs_first = true ∧
    (fsUnsorted.readDir ["r"]).map (List.map DirEntryRaw.name) = some ["b", "a"] ∧
    (read_dir_frame (mkEnv fsUnsorted cfgDirsFirst filtersNone) ["r"] "" 1).map
        (fun f => f.entries.map EntryMeta.name) = some ["a", "b"] := by
  refine ⟨by decide, by decide, by decide, by decide⟩

/-- C6 (amended): with dirs-first enabled, the frame's entries are a
permutation of the resolved, filtered children ordered by the dirs-first
comparator: directory-pointing entries come first, and inside each
partition the order is nondecreasing byte-name order — regardless of
which secondary sort was configured. -/
theorem claim_C6 (l : List EntryMeta) (env : Env) (p : FsPath) (pfx : String)
    (d : Nat) (f : Frame) (hdf : env.cli.dirs_first = true)
    (hf : read_dir_frame env p pfx d = some f) :
    (sortByCmp dirsFirstCmp l).Perm l ∧
    (sortByCmp dirsFirstCmp l).Pairwise
      (fun a b => b.points_to_directory = true → a.points_to_directory = true) ∧
    (sortByCmp dirsFirstCmp l).Pairwise
      (fun a b => a.points_to_directory = b.points_to_directory →
        osStrCompare a.sort_key b.sort_key ≠ .gt) ∧
    f.entries.Pairwise
      (fun a b => b.points_to_directory = true → a.points_to_directory = true) ∧
    f.entries.Pairwise
      (fun a b => a.points_to_directory = b.points_to_directory →
        osStrCompare a.sort_key b.sort_key ≠ .gt) := by
  have key : ∀ m : List EntryMeta,
      (sortByCmp dirsFirstCmp m).Pairwise
        (fun a b => b.points_to_directory = true → a.points_to_directory = true) ∧
      (sortByCmp dirsFirstCmp m).Pairwise
        (fun a b => a.points_to_directory = b.points_to_directory →
          osStrCompare a.sort_key b.sort_key ≠ .gt) := by
    intro m
    have hs := sortByCmp_dirsFirst_sorted m
    constructor
    · refine hs.imp ?_
      intro a b h hb
      rcases hpa : a.points_to_directory with _ | _
      · exfalso
        apply h
        simp [dirsFirstCmp, boolCompare, hpa, hb, Ordering.then]
      · rfl
    · refine hs.imp ?_
      intro a b h heq
      rcases hpa : a.points_to_directory with _ | _ <;>
        rcases hpb : b.points_to_directory with _ | _ <;>
        simp [hpa, hpb] at heq <;>
        simpa [dirsFirstCmp, nameCmp, boolCompare, hpa, hpb, Ordering.then] using h
  refine ⟨sortByCmp_perm dirsFirstCmp l, (key l).1, (key l).2, ?_, ?_⟩
  · -- the frame entries are the dirs-first sort of the prepared list
    revert hf
    simp only [read_dir_frame]
    rcases env.fs.readDir p with _ | rd
    · intro h
      exact absurd h (by simp)
    · simp only []
      split
      · intro h
        exact absurd h (by simp)
      · split
        · intro h
          exact absurd h (by simp)
        · intro h
          rw [Option.some_inj] at h
          subst h
          simp only [hdf, if_pos rfl]
          exact (key _).1
  · revert hf
    simp only [read_dir_frame]
    rcases env.fs.readDir p with _ | rd
    · intro h
      exact absurd h (by simp)
    · simp only []
      split
      · intro h
        exact absurd h (by simp)
      · split
        · intro h
          exact absurd h (by simp)
        · intro h
          rw [Option.some_inj] at h
          subst h
          simp only [hdf, if_pos rfl]
          exact (key _).2




/-- C6 witness: the dirs-first frame over the concrete out-of-order
listing satisfies the amended ordering guarantee. -/
theorem claim_C6_witness :
    (mkEnv fsUnsorted cfgDirsFirst filtersNone).cli.dirs_first = true ∧
    ((read_dir_frame (mkEnv fsUnsorted cfgDirsFirst filtersNone) ["r"] "" 1).get
        (by decide)).entries.Pairwise
      (fun a b => a.points_to_directory = b.points_to_directory →
        osStrCompare a.sort_key b.sort_key ≠ .gt) :=
  ⟨by decide,
   (claim_C6 [] (mkEnv fsUnsorted cfgDirsFirst filtersNone) ["r"] "" 1 _
     (by decide) (Option.some_get _).symm).2.2.2.2⟩

/-- C1 counterexample: with follow-symlinks DISABLED, the symlink `esc`
whose canonical target `outside` lies outside the canonical scan root
`r` is emitted with an EMPTY error field (the claim demands a non-empty
error regardless of the follow-symlinks configuration). -/
theorem claim_C1_counterexample :
    (EntryMeta.from_seed fsEscape ⟨["r", "esc"], "esc", some FKind.symlink, none⟩).is_symlink
        = true ∧
    (EntryMeta.from_seed fsEscape ⟨["r", "esc"], "esc", some FKind.symlink, none⟩).canonical_path
        = some ["outside"] ∧
    path_within_root ["outside"] ["r"] = false ∧
    (mkEnv fsEscape cfgBase filtersNone).cli.follow_symlinks = false ∧
    (collect_entries_flat (mkEnv fsEscape cfgBase filtersNone) ["r"] 100).map
        (List.map Entry.name) = some ["r", "esc"] ∧
    (collect_entries_flat (mkEnv fsEscape cfgBase filtersNone) ["r"] 100).map
        (List.map Entry.error) = some [none, none] := by
  refine ⟨by decide, by decide, by decide, by decide, by decide, by decide⟩

/-- C1 (amended): a symlink entry whose canonical target lies outside
the root guard is never descended into and never opens a frame,
regardless of the follow-symlinks configuration; the explanatory error
(and the forced-off loop flag) is applied exactly when the symlink was
an actual descent candidate — follow-symlinks enabled, directory target,
not already visited — otherwise the entry is an ordinary non-descending
leaf with its error field untouched. -/
theorem claim_C1 :
    (∀ (meta : EntryMeta) (pfx : String) (depth : Nat) (is_last : Bool) (cli : Cfg)
        (visited : List FsPath) (rootPath c : FsPath),
      meta.is_symlink = true → meta.canonical_path = some c →
      path_within_root c rootPath = false →
      (handle_entry meta pfx depth is_last cli visited (some rootPath)).descend = false ∧
      (handle_entry meta pfx depth is_last cli visited (some rootPath)).recorded = none ∧
      (handle_entry meta pfx depth is_last cli visited (some rootPath)).visited = visited ∧
      (cli.follow_symlinks = true → meta.points_to_directory = true →
        visited.contains c = false →
        (handle_entry meta pfx depth is_last cli visited (some rootPath)).entry.error.isSome
            = true ∧
        (handle_entry meta pfx depth is_last cli visited (some rootPath)).entry.loop_detected
            = false)) ∧
    (∀ (env : Env) (rootPath c : FsPath) (s : LoopState) (f : Frame)
        (rest : List Frame) (h : f.idx < f.entries.length),
      s.stack = f :: rest →
      (f.entries.get ⟨f.idx, h⟩).is_symlink = true →
      (f.entries.get ⟨f.idx, h⟩).canonical_path = some c →
      path_within_root c rootPath = false →
      loopStep env (some rootPath) s =
        .next (stepNextState env (some rootPath) s f rest h) ∧
      (stepNextState env (some rootPath) s f rest h).stack.length = s.stack.length) := by
  constructor
  · intro meta pfx depth is_last cli visited rootPath c hs hc hout
    have := handle_entry_outside_root meta pfx depth is_last cli visited rootPath c hs hc hout
    exact ⟨this.1, this.2.1, this.2.2.1, fun h1 h2 h3 =>
      ⟨(this.2.2.2 h1 h2 h3).1, (this.2.2.2 h1 h2 h3).2.1⟩⟩
  · intro env rootPath c s f rest h hst hsym hc hout
    have hdes : (stepHandle env (some rootPath) s f h).descend = false :=
      (handle_entry_outside_root _ _ _ _ _ _ _ _ hsym hc hout).1
    rcases loopStep_shape env (some rootPath) s with ⟨hnil, _⟩ | hsh | hsh
    · rw [hst] at hnil
      exact absurd hnil (by simp)
    · obtain ⟨g, grest, hst2, hle, _⟩ := hsh
      rw [hst] at hst2
      obtain ⟨rfl, rfl⟩ : g = f ∧ grest = rest := by
        exact ⟨(List.cons.injEq _ _ _ _ ▸ hst2).1.symm, (List.cons.injEq _ _ _ _ ▸ hst2).2.symm⟩
      omega
    · obtain ⟨g, grest, h2, hst2, hcase⟩ := hsh
      rw [hst] at hst2
      obtain ⟨rfl, rfl⟩ : g = f ∧ grest = rest := by
        exact ⟨(List.cons.injEq _ _ _ _ ▸ hst2).1.symm, (List.cons.injEq _ _ _ _ ▸ hst2).2.symm⟩
      rcases hcase with ⟨hdes2, _⟩ | ⟨hstep, _⟩
      · rw [hdes] at hdes2
        exact absurd hdes2 (by simp)
      · refine ⟨hstep, ?_⟩
        rw [hst]
        simp [stepNextState]

/-- C1 witness: with follow-symlinks ENABLED on the escaping-symlink
fixture, the blocked candidate is not descended and carries the
explanatory error. -/
theorem claim_C1_witness :
    (handle_entry (EntryMeta.from_seed fsEscape ⟨["r", "esc"], "esc", some FKind.symlink, none⟩)
        "" 1 true cfgFollow [["r"]] (some ["r"])).descend = false ∧
    (handle_entry (EntryMeta.from_seed fsEscape ⟨["r", "esc"], "esc", some FKind.symlink, none⟩)
        "" 1 true cfgFollow [["r"]] (some ["r"])).entry.error.isSome = true := by
  have := (claim_C1.1 (EntryMeta.from_seed fsEscape ⟨["r", "esc"], "esc", some FKind.symlink, none⟩)
    "" 1 true cfgFollow [["r"]] ["r"] ["outside"] (by decide) (by decide) (by decide))
  exact ⟨this.1, (this.2.2.2 (by decide) (by decide) (by decide)).1⟩




/-- The filter pipeline ignores the git status annotation. -/
theorem allows_gitApply (env : Env) (fl : Filters) (m : EntryMeta) :
    fl.allows (gitApply env m) = fl.allows m := by
  cases hg : env.git <;> simp [gitApply, hg, Filters.allows]


/-- Membership is preserved backwards through the optional sorting steps
of `read_dir_frame`. -/
theorem mem_of_sorts {m : EntryMeta} {l : List EntryMeta} {c1 c2 : Prop}
    [Decidable c1] [Decidable c2] {cmp1 cmp2 : EntryMeta → EntryMeta → Ordering}
    (hm : m ∈ (if c2 then sortByCmp cmp2 (if c1 then sortByCmp cmp1 l else l)
      else (if c1 then sortByCmp cmp1 l else l))) : m ∈ l := by
  by_cases h2 : c2 <;> by_cases h1 : c1 <;> simp only [h2, h1, if_pos, if_neg,
    not_false_iff, reduceIte] at hm
  · exact ((sortByCmp_perm _ _).mem_iff).mp (((sortByCmp_perm _ _).mem_iff).mp hm)
  · exact ((sortByCmp_perm _ _).mem_iff).mp hm
  · exact ((sortByCmp_perm _ _).mem_iff).mp hm
  · exact hm

/-- Every entry of a frame produced by `read_dir_frame` passed the
filter pipeline: rejected entries (files AND directories) never enter a
frame. -/
theorem read_dir_frame_allows (env : Env) (p : FsPath) (pfx : String) (d : Nat)
    (f : Frame) (hf : read_dir_frame env p pfx d = some f) :
    ∀ m ∈ f.entries, env.filters.allows m = true := by
  revert hf
  simp only [read_dir_frame]
  rcases env.fs.readDir p with _ | rd
  · intro h
    exact absurd h (by simp)
  · simp only []
    split
    · intro h
      exact absurd h (by simp)
    · split
      · intro h
        exact absurd h (by simp)
      · intro h
        rw [Option.some_inj] at h
        subst h
        intro m hm
        simp only [] at hm
        have hm1 := mem_of_sorts hm
        rcases List.mem_map.mp hm1 with ⟨m0, hm0, rfl⟩
        rw [allows_gitApply]
        exact (List.mem_filter.mp hm0).2

/-- Every frame the traversal loop pushes is the listing of the path of
the entry just processed, and only after a positive descend decision. -/
theorem loopStep_push_origin (env : Env) (rg : Option FsPath) (s s1 : LoopState)
    (hstep : loopStep env rg s = .next s1)
    (hgrow : s.stack.length < s1.stack.length) :
    ∃ f rest, ∃ h : f.idx < f.entries.length, ∃ child,
      s.stack = f :: rest ∧
      (stepHandle env rg s f h).descend = true ∧
      read_dir_frame env (stepHandle env rg s f h).meta.path
        (stepHandle env rg s f h).childPfx (f.depth + 1) = some child ∧
      s1 = { stepNextState env rg s f rest h with
        stack := child :: (stepNextState env rg s f rest h).stack } ∧
      (stepHandle env rg s f h).meta.path = (f.entries.get ⟨f.idx, h⟩).path := by
  rcases loopStep_shape env rg s with ⟨_, hdone⟩ | hsh | hsh
  · rw [hdone] at hstep
    exact absurd hstep (by simp)
  · obtain ⟨f, rest, hst, _, heq⟩ := hsh
    rw [heq] at hstep
    rw [StepOut.next.injEq] at hstep
    subst hstep
    rw [hst] at hgrow
    simp at hgrow
  · obtain ⟨f, rest, h, hst, hcase⟩ := hsh
    rcases hcase with ⟨hdes, child, hrd, heq⟩ | ⟨heq, _⟩
    · rw [heq] at hstep
      rw [StepOut.next.injEq] at hstep
      subst hstep
      obtain ⟨ld, er, hmeta⟩ := handle_entry_meta_shape
        (f.entries.get ⟨f.idx, h⟩) f.pfx f.depth (f.idx + 1 == f.entries.length)
        env.cli s.visited rg
      refine ⟨f, rest, h, child, hst, hdes, hrd, rfl, ?_⟩
      show (handle_entry _ _ _ _ _ _ _).meta.path = _
      rw [hmeta]
    · rw [heq] at hstep
      rw [StepOut.next.injEq] at hstep
      subst hstep
      rw [hst] at hgrow
      simp [stepNextState] at hgrow




/-- A root `r` with one subdirectory `a` (directory metadata length 0)
holding one 200-byte file `big`. -/
def fsPruned : FileSystem :=
  { symlinkMetadata := fun p =>
      if p = ["r"] then .ok mdDir
      else if p = ["r", "a"] then .ok mdDir
      else if p = ["r", "a", "big"] then .ok (mdFile 200)
      else .error "missing"
    metadata := fun p =>
      if p = ["r"] then .ok mdDir
      else if p = ["r", "a"] then .ok mdDir
      else if p = ["r", "a", "big"] then .ok (mdFile 200)
      else .error "missing"
    canonicalize := fun p => some p
    readLink := fun _ => none
    readDir := fun p =>
      if p = ["r"] then some [⟨"a", .ok FKind.dir⟩]
      else if p = ["r", "a"] then some [⟨"big", .ok FKind.file⟩]
      else none }

/-- A filter bundle whose size filter keeps entries of at least 100
bytes. -/
def filtersGe100 : Filters := ⟨["r"], .name, none, some ⟨.ge, 100⟩, none, none⟩

/-- C5 counterexample: the size filter rejects the directory `a` (size
0), and the traversal then never opens `a` at all — its 200-byte child
`big`, which the very same filter accepts, is never emitted.  The claim
says a rejected directory is still opened and its children filtered
independently. -/
theorem claim_C5_counterexample :
    (mkEnv fsPruned cfgBase filtersGe100).filters.allows
        (EntryMeta.from_seed fsPruned ⟨["r", "a"], "a", some FKind.dir, none⟩) = false ∧
    (mkEnv fsPruned cfgBase filtersGe100).filters.allows
        (EntryMeta.from_seed fsPruned ⟨["r", "a", "big"], "big", some FKind.file, none⟩)
      = true ∧
    (read_dir_frame (mkEnv fsPruned cfgBase filtersGe100) ["r", "a"] "" 2).isSome = true ∧
    (collect_entries_flat (mkEnv fsPruned cfgBase filtersGe100) ["r"] 100).map
        (List.map Entry.name) = some ["r"] := by
  refine ⟨by decide, by decide, by decide, by decide⟩

/-- C5 (amended): filtering is per-entry for emission but it does prune
descent — an entry the filter pipeline rejects never enters a frame, and
the loop only ever opens a directory listed at the path of a frame entry
it just processed with a positive descend decision; hence a rejected
directory's subtree is never opened. -/
theorem claim_C5 :
    (∀ (env : Env) (p : FsPath) (pfx : String) (d : Nat) (f : Frame),
      read_dir_frame env p pfx d = some f →
      ∀ m ∈ f.entries, env.filters.allows m = true) ∧
    (∀ (env : Env) (rg : Option FsPath) (s s1 : LoopState),
      loopStep env rg s = .next s1 → s.stack.length < s1.stack.length →
      ∃ f rest, ∃ h : f.idx < f.entries.length, ∃ child,
        s.stack = f :: rest ∧
        (stepHandle env rg s f h).descend = true ∧
        read_dir_frame env (stepHandle env rg s f h).meta.path
          (stepHandle env rg s f h).childPfx (f.depth + 1) = some child ∧
        s1 = { stepNextState env rg s f rest h with
          stack := child :: (stepNextState env rg s f rest h).stack } ∧
        (stepHandle env rg s f h).meta.path = (f.entries.get ⟨f.idx, h⟩).path) :=
  ⟨read_dir_frame_allows, loopStep_push_origin⟩

/-- C5 witness: on the two-file size-filter fixture, the sole frame
entry (the 2 MiB file) indeed passed the configured filter. -/
theorem claim_C5_witness :
    (mkEnv fsSizes cfgBase filtersGe100).filters.allows
      (((read_dir_frame (mkEnv fsSizes cfgBase filtersGe100) ["r"] "" 1).get
          (by decide)).entries.get ⟨0, by decide⟩) = true := by
  refine claim_C5.1 (mkEnv fsSizes cfgBase filtersGe100) ["r"] "" 1
    ((read_dir_frame (mkEnv fsSizes cfgBase filtersGe100) ["r"] "" 1).get (by decide))
    (Option.some_get _).symm _ ?_
  exact List.get_mem _ _ _




/-- C8: every CSV record is the comma-separated concatenation of the
eleven fields in the fixed order name, path, depth, kind, size, mtime,
perm, symlink_target, loop_detected, error, git_status; and a field
value containing a comma, double quote or newline is written wrapped in
double quotes with each internal double quote doubled, while a value
containing none of those characters is written unchanged. -/
theorem claim_C8 (e : Entry) (s : String) :
    (write_csv_entry e).data =
      List.intercalate [','] [(csv_escape e.name).data, (csv_escape e.path).data,
        (Nat.repr e.depth).data, (entry_kind_label e.kind).data,
        (match e.size with | some n => Nat.repr n | none => "").data,
        (match e.mtime with | some m => csv_escape m | none => "").data,
        (match e.perm with | some pm => csv_escape pm | none => "").data,
        (match e.symlink_target with | some t => csv_escape t | none => "").data,
        (if e.loop_detected then "true" else "false").data,
        (match e.error with | some err => csv_escape err | none => "").data,
        (match e.git_status with | some c => String.mk [c] | none => "").data] ∧
    ((',' ∈ s.data ∨ '"' ∈ s.data ∨ '\n' ∈ s.data) →
      csv_escape s = "\"" ++
        String.mk (s.data.flatMap fun c => if c = '"' then ['"', '"'] else [c]) ++ "\"") ∧
    (¬(',' ∈ s.data ∨ '"' ∈ s.data ∨ '\n' ∈ s.data) → csv_escape s = s) := by
  refine ⟨?_, ?_, ?_⟩
  · simp [write_csv_entry, List.intercalate, List.intersperse, String.data_append]
  · intro h
    have hne : csvNeedsEscape s = true := by
      simp only [csvNeedsEscape, Bool.or_eq_true]
      simpa [or_assoc] using h
    simp only [csv_escape, if_pos hne]
    rfl
  · intro h
    have hne : csvNeedsEscape s = false := by
      simp only [csvNeedsEscape, Bool.or_eq_false_iff]
      constructor
      · constructor <;> simp_all
      · simp_all
    simp [csv_escape, hne]



/-- C8 witness: concrete escaping behavior — a value with a comma gets
quoted, a value with a quote gets it doubled, a plain value passes
through unchanged. -/
theorem claim_C8_witness :
    csv_escape "a,b" = "\"a,b\"" ∧ csv_escape "plain" = "plain" := by
  constructor
  · rw [(claim_C8 (Entry.from_meta (EntryMeta.from_path fsTwoFiles ["r"]) 0) "a,b").2.1
      (by decide)]
    decide
  · exact (claim_C8 (Entry.from_meta (EntryMeta.from_path fsTwoFiles ["r"]) 0) "plain").2.2
      (by decide)




/-- An ASCII digit is not whitespace. -/
theorem not_ws_of_digit (c : Char) (h : c.isDigit = true) : isWs c = false := by
  simp only [isWs]
  by_contra hw
  rw [Bool.not_eq_false] at hw
  simp only [Char.isWhitespace, Bool.or_eq_true, decide_eq_true_eq] at hw
  simp only [Char.isDigit, Bool.and_eq_true, decide_eq_true_eq] at h
  rcases hw with ((rfl | rfl) | rfl) | rfl <;> exact absurd h (by decide)

theorem dropWhile_eq_self_of_head {p : Char → Bool} :
    ∀ l : List Char, (∀ c ∈ l, p c = false) → l.dropWhile p = l := by
  intro l h
  cases l with
  | nil => rfl
  | cons a rest =>
    rw [List.dropWhile_cons, if_neg (by simp [h a (by simp)])]

/-- Trimming a string with no whitespace is the identity. -/
theorem trimChars_eq_self (cs : List Char) (h : ∀ c ∈ cs, isWs c = false) :
    trimChars cs = cs := by
  unfold trimChars
  rw [dropWhile_eq_self_of_head cs h]
  rw [dropWhile_eq_self_of_head cs.reverse (fun c hc => h c (List.mem_reverse.mp hc))]
  exact List.reverse_reverse cs

theorem dropWhile_eq_nil_of_all {p : Char → Bool} :
    ∀ l : List Char, (∀ c ∈ l, p c = true) → l.dropWhile p = [] := by
  intro l
  induction l with
  | nil => intro _; rfl
  | cons a rest ih =>
    intro h
    rw [List.dropWhile_cons, if_pos (by simp [h a (by simp)])]
    exact ih fun c hc => h c (by simp [hc])



/-- The operator spellings of the size-filter grammar (used to state the
parsing property). -/
def sizeCmpToken : SizeCmp → String
  | .lt => "<"
  | .le => "<="
  | .eq => "=="
  | .ge => ">="
  | .gt => ">"

/-- A non-digit character is `==`-distinct from a digit. -/
theorem beq_digit_false (x d : Char) (hx : x.isDigit = false) (hd : d.isDigit = true) :
    (x == d) = false := by
  by_contra hb
  rw [Bool.not_eq_false] at hb
  have hxd : x = d := eq_of_beq hb
  rw [hxd, hd] at hx
  exact absurd hx (by decide)

/-- Operator stripping: on a spec made of an operator token followed by
a digit-led remainder with no whitespace, `parseSizeChars` dispatches to
`parseSizeRemainder` with the matching comparison. -/
theorem parseSizeChars_strip (cmp : SizeCmp) (d : Char) (rest : List Char)
    (hd : d.isDigit = true) (hnw : ∀ c ∈ d :: rest, isWs c = false) :
    parseSizeChars ((sizeCmpToken cmp).data ++ (d :: rest)) =
      parseSizeRemainder cmp (d :: rest) := by
  have hne : ('=' == d) = false := beq_digit_false '=' d (by decide) hd
  cases cmp
  · -- lt: "<"
    have hnw2 : ∀ c ∈ ('<' :: d :: rest), isWs c = false := by
      intro c hc
      rcases List.mem_cons.mp hc with rfl | hc
      · decide
      · exact hnw c hc
    show parseSizeChars ('<' :: d :: rest) = _
    unfold parseSizeChars
    rw [trimChars_eq_self _ hnw2]
    simp [List.isPrefixOf, hne]
  · -- le: "<="
    have hnw2 : ∀ c ∈ ('<' :: '=' :: d :: rest), isWs c = false := by
      intro c hc
      rcases List.mem_cons.mp hc with rfl | hc
      · decide
      rcases List.mem_cons.mp hc with rfl | hc
      · decide
      · exact hnw c hc
    show parseSizeChars ('<' :: '=' :: d :: rest) = _
    unfold parseSizeChars
    rw [trimChars_eq_self _ hnw2]
    simp [List.isPrefixOf]
  · -- eq: "=="
    have hnw2 : ∀ c ∈ ('=' :: '=' :: d :: rest), isWs c = false := by
      intro c hc
      rcases List.mem_cons.mp hc with rfl | hc
      · decide
      rcases List.mem_cons.mp hc with rfl | hc
      · decide
      · exact hnw c hc
    show parseSizeChars ('=' :: '=' :: d :: rest) = _
    unfold parseSizeChars
    rw [trimChars_eq_self _ hnw2]
    simp [List.isPrefixOf]
  · -- ge: ">="
    have hnw2 : ∀ c ∈ ('>' :: '=' :: d :: rest), isWs c = false := by
      intro c hc
      rcases List.mem_cons.mp hc with rfl | hc
      · decide
      rcases List.mem_cons.mp hc with rfl | hc
      · decide
      · exact hnw c hc
    show parseSizeChars ('>' :: '=' :: d :: rest) = _
    unfold parseSizeChars
    rw [trimChars_eq_self _ hnw2]
    simp [List.isPrefixOf]
  · -- gt: ">"
    have hnw2 : ∀ c ∈ ('>' :: d :: rest), isWs c = false := by
      intro c hc
      rcases List.mem_cons.mp hc with rfl | hc
      · decide
      · exact hnw c hc
    show parseSizeChars ('>' :: d :: rest) = _
    unfold parseSizeChars
    rw [trimChars_eq_self _ hnw2]
    simp [List.isPrefixOf, hne]



/-- Remainder processing, parametrized by the concrete unit suffix. -/
theorem parseSizeRemainder_unit (cmp : SizeCmp) (ds ucs : List Char) (n mult : Nat)
    (hne : ds ≠ []) (hdig : ∀ c ∈ ds, c.isDigit = true)
    (hn : parseU64 ds = some n)
    (hraw : ∀ c ∈ ucs, isWs c = false)
    (htail : List.takeWhile Char.isDigit ucs = [])
    (hdrop2 : List.dropWhile Char.isDigit ucs = ucs)
    (hunit : sizeUnitMultiplier ((trimChars ucs).map Char.toLower) = some mult)
    (hb : n * mult < 2 ^ 64) :
    parseSizeRemainder cmp (ds ++ ucs) = .ok ⟨cmp, n * mult⟩ := by
  have hnw : ∀ c ∈ ds ++ ucs, isWs c = false := by
    intro c hc
    rcases List.mem_append.mp hc with hc | hc
    · exact not_ws_of_digit c (hdig c hc)
    · exact hraw c hc
  have hnonempty : (ds ++ ucs).isEmpty = false := by
    cases ds with
    | nil => exact absurd rfl hne
    | cons a l => rfl
  have hdsempty : ds.isEmpty = false := by
    cases ds with
    | nil => exact absurd rfl hne
    | cons a l => rfl
  have htake : List.takeWhile Char.isDigit (ds ++ ucs) = ds := by
    rw [List.takeWhile_append]
    rw [List.takeWhile_eq_self_iff.mpr hdig]
    simp [htail]
  have hdrop : List.dropWhile Char.isDigit (ds ++ ucs) = ucs := by
    rw [List.dropWhile_append]
    rw [dropWhile_eq_nil_of_all ds hdig]
    simp [hdrop2]
  have htrim2 : trimChars ucs = ucs := trimChars_eq_self _ hraw
  rw [htrim2] at hunit
  unfold parseSizeRemainder
  rw [trimChars_eq_self _ hnw]
  simp only [hnonempty, htake, hdrop, hdsempty, hn, htrim2, hunit, hb,
    Bool.false_eq_true, if_false, if_true, reduceIte]

/-- Remainder processing for the claim's unit table. -/
theorem parseSizeRemainder_ok (cmp : SizeCmp) (ds : List Char) (n mult : Nat)
    (u : String) (hne : ds ≠ []) (hdig : ∀ c ∈ ds, c.isDigit = true)
    (hn : parseU64 ds = some n)
    (hu : (u, mult) ∈ [("B", 1), ("KiB", 2 ^ 10), ("MiB", 2 ^ 20),
      ("GiB", 2 ^ 30), ("TiB", 2 ^ 40)])
    (hb : n * mult < 2 ^ 64) :
    parseSizeRemainder cmp (ds ++ u.data) = .ok ⟨cmp, n * mult⟩ := by
  fin_cases hu <;>
    (refine parseSizeRemainder_unit cmp ds _ n _ hne hdig hn ?_ ?_ ?_ ?_ hb <;> decide)



/-- C7: the size filter grammar parses a comparison operator followed by
an integer numeral and a binary byte-unit suffix (bytes, KiB, MiB, GiB,
TiB as powers of 1024) into the corresponding comparison and byte
threshold; an entry with unknown size never matches any size filter; and
the `size>=1MB` scenario on a directory holding a 2 MB file and a
10-byte file emits exactly one file entry (plus the root directory). -/
theorem claim_C7 :
    (∀ (cmp : SizeCmp) (ds : List Char) (n mult : Nat) (u : String),
      ds ≠ [] → (∀ c ∈ ds, c.isDigit = true) → parseU64 ds = some n →
      (u, mult) ∈ [("B", 1), ("KiB", 2 ^ 10), ("MiB", 2 ^ 20),
        ("GiB", 2 ^ 30), ("TiB", 2 ^ 40)] →
      n * mult < 2 ^ 64 →
      parse_size_filter (sizeCmpToken cmp ++ String.mk ds ++ u) =
        .ok ⟨cmp, n * mult⟩) ∧
    (∀ f : SizeFilter, f.allows none = false) ∧
    parse_size_filter ">=1MB" = .ok ⟨SizeCmp.ge, 1048576⟩ ∧
    (collect_entries_flat
        (mkEnv fsSizes cfgBase ⟨["r"], .name, none, some ⟨SizeCmp.ge, 1048576⟩, none, none⟩)
        ["r"] 100).map (List.map Entry.name) = some ["r", "big"] ∧
    (collect_entries_flat
        (mkEnv fsSizes cfgBase ⟨["r"], .name, none, some ⟨SizeCmp.ge, 1048576⟩, none, none⟩)
        ["r"] 100).map (List.map Entry.kind) = some [EntryKind.dir, EntryKind.file] := by
  refine ⟨?_, ?_, by rfl, by decide, by decide⟩
  · intro cmp ds n mult u hne hdig hn hu hb
    have hunw : ∀ c ∈ u.data, isWs c = false := by
      fin_cases hu <;> decide
    cases ds with
    | nil => exact absurd rfl hne
    | cons d ds2 =>
      have hd : d.isDigit = true := hdig d (by simp)
      have key : parse_size_filter (sizeCmpToken cmp ++ String.mk (d :: ds2) ++ u) =
          parseSizeChars ((sizeCmpToken cmp).data ++ (d :: (ds2 ++ u.data))) := by
        simp [parse_size_filter, String.data_append, List.append_assoc]
      rw [key]
      rw [parseSizeChars_strip cmp d (ds2 ++ u.data) hd ?hnw]
      case hnw =>
        intro c hc
        rcases List.mem_cons.mp hc with rfl | hc
        · exact not_ws_of_digit _ hd
        · rcases List.mem_append.mp hc with hc | hc
          · exact not_ws_of_digit _ (hdig c (by simp [hc]))
          · exact hunw c hc
      exact parseSizeRemainder_ok cmp (d :: ds2) n mult u hne hdig hn hu hb
  · intro f
    rfl

/-- C7 witness: the spec `>=1MiB` parses to the 1 MiB threshold with the
greater-or-equal comparison, via the general parsing theorem at the
concrete numeral `1`. -/
theorem claim_C7_witness :
    parse_size_filter (sizeCmpToken SizeCmp.ge ++ String.mk ['1'] ++ "MiB") =
      .ok ⟨SizeCmp.ge, 1048576⟩ ∧
    SizeFilter.allows ⟨SizeCmp.ge, 1048576⟩ none = false := by
  constructor
  · have := claim_C7.1 SizeCmp.ge ['1'] 1 1048576 "MiB" (by decide) (by decide)
      (by decide) (by decide) (by decide)
    simpa using this
  · exact claim_C7.2.1 ⟨SizeCmp.ge, 1048576⟩




/-- Invariant propagation along `runLoop`. -/
theorem runLoop_inv (env : Env) (rg : Option FsPath) (P : LoopState → Prop)
    (hstep : ∀ s s1, loopStep env rg s = .next s1 → P s → P s1) :
    ∀ (fuel : Nat) (s sF : LoopState), P s → runLoop env rg fuel s = some sF → P sF := by
  intro fuel
  induction fuel with
  | zero =>
    intro s sF _ h
    simp [runLoop] at h
  | succ n ih =>
    intro s sF hP h
    rw [runLoop] at h
    rcases hls : loopStep env rg s with s2 | s2 <;> rw [hls] at h
    · have hss : s2 = s := by
        rcases loopStep_shape env rg s with ⟨_, hdone⟩ | ⟨f, rest, _, _, hnext⟩ |
            ⟨f, rest, hlt, _, hcase⟩
        · rw [hdone] at hls
          exact (StepOut.done.injEq _ _ ▸ hls).symm
        · rw [hnext] at hls
          exact absurd hls (by simp)
        · rcases hcase with ⟨_, _, _, hnext⟩ | ⟨hnext, _⟩ <;> rw [hnext] at hls <;>
            exact absurd hls (by simp)
      rw [Option.some_inj] at h
      subst h
      rw [hss]
      exact hP
    · exact ih s2 sF (hstep s s2 hls hP) h

/-- The visited set only grows across one loop iteration. -/
theorem loopStep_visited_mono (env : Env) (rg : Option FsPath) (q : FsPath)
    (s s1 : LoopState) (h : loopStep env rg s = .next s1)
    (hq : s.visited.contains q = true) : s1.visited.contains q = true := by
  rcases loopStep_shape env rg s with ⟨_, hdone⟩ | ⟨f, rest, _, _, hnext⟩ |
      ⟨f, rest, hlt, _, hcase⟩
  · rw [hdone] at h
    exact absurd h (by simp)
  · rw [hnext] at h
    rw [StepOut.next.injEq] at h
    subst h
    exact hq
  · have hvis : s1.visited = (stepHandle env rg s f hlt).visited := by
      rcases hcase with ⟨_, _, _, hnext⟩ | ⟨hnext, _⟩ <;> rw [hnext] at h <;>
        rw [StepOut.next.injEq] at h <;> subst h <;> rfl
    rw [hvis]
    rcases handle_entry_insert_cases (f.entries.get ⟨f.idx, hlt⟩) f.pfx f.depth
        (f.idx + 1 == f.entries.length) env.cli s.visited rg with
      ⟨_, hsame⟩ | ⟨c, _, hcons, _, _, _⟩
    · rw [show (stepHandle env rg s f hlt).visited = s.visited from hsame]
      exact hq
    · rw [show (stepHandle env rg s f hlt).visited = c :: s.visited from hcons]
      simp only [List.contains_cons, Bool.or_eq_true]
      exact Or.inr hq

/-- New log records come from the cursor entry's handle result. -/
theorem loopStep_log_shape (env : Env) (rg : Option FsPath) (s s1 : LoopState)
    (h : loopStep env rg s = .next s1) :
    s1.log = s.log ∨
    ∃ f rest, ∃ hlt : f.idx < f.entries.length, s.stack = f :: rest ∧
      s1.log = ⟨(stepHandle env rg s f hlt).meta, (stepHandle env rg s f hlt).entry,
        (stepHandle env rg s f hlt).descend⟩ :: s.log := by
  rcases loopStep_shape env rg s with ⟨_, hdone⟩ | ⟨f, rest, _, _, hnext⟩ |
      ⟨f, rest, hlt, hst, hcase⟩
  · rw [hdone] at h
    exact absurd h (by simp)
  · rw [hnext] at h
    rw [StepOut.next.injEq] at h
    subst h
    exact Or.inl rfl
  · right
    refine ⟨f, rest, hlt, hst, ?_⟩
    rcases hcase with ⟨_, _, _, hnext⟩ | ⟨hnext, _⟩ <;> rw [hnext] at h <;>
      rw [StepOut.next.injEq] at h <;> subst h <;> rfl

/-- C10: the scan root's canonical path (the root path itself when
canonicalization fails) is in the visited set before any frame is
opened; consequently, in every run of the shared traversal, any
processed symlink entry whose canonical target is that path is emitted
with `loop_detected = true` and is not descended into — even on its
first encounter. -/
theorem claim_C10 (env : Env) (root : FsPath) (fuel : Nat) (sF : LoopState)
    (hrun : runTraversal env root fuel = some sF) :
    (rootSetup env root).2.2.contains (((rootSetup env root).2.1).getD root) = true ∧
    ∀ rec ∈ sF.log, rec.meta.is_symlink = true →
      rec.meta.canonical_path = some (((rootSetup env root).2.1).getD root) →
      rec.entry.loop_detected = true ∧ rec.descend = false := by
  have hinit : (rootSetup env root).2.2.contains (((rootSetup env root).2.1).getD root)
      = true := by
    simp [rootSetup, canonical_root_for_security]
  refine ⟨hinit, ?_⟩
  have hstep : ∀ s s1, loopStep env ((rootSetup env root).2.1) s = .next s1 →
      (s.visited.contains (((rootSetup env root).2.1).getD root) = true ∧
        ∀ rec ∈ s.log, rec.meta.is_symlink = true →
          rec.meta.canonical_path = some (((rootSetup env root).2.1).getD root) →
          rec.entry.loop_detected = true ∧ rec.descend = false) →
      (s1.visited.contains (((rootSetup env root).2.1).getD root) = true ∧
        ∀ rec ∈ s1.log, rec.meta.is_symlink = true →
          rec.meta.canonical_path = some (((rootSetup env root).2.1).getD root) →
          rec.entry.loop_detected = true ∧ rec.descend = false) := by
    intro s s1 hls hPs
    obtain ⟨hq, hlog⟩ := hPs
    refine ⟨loopStep_visited_mono env _ _ s s1 hls hq, ?_⟩
    rcases loopStep_log_shape env _ s s1 hls with hsame | ⟨f, rest, hlt, hst, hnew⟩
    · rw [hsame]
      exact hlog
    · rw [hnew]
      intro rec hrec
      rcases List.mem_cons.mp hrec with rfl | hrec
      · intro hsym hcanon
        obtain ⟨ld, er, hms⟩ := handle_entry_meta_shape (f.entries.get ⟨f.idx, hlt⟩)
          f.pfx f.depth (f.idx + 1 == f.entries.length) env.cli s.visited
          ((rootSetup env root).2.1)
        simp only [stepHandle] at hsym hcanon ⊢
        rw [hms] at hsym hcanon
        simp only [] at hsym hcanon
        have hhit := handle_entry_loop_hit (f.entries.get ⟨f.idx, hlt⟩) f.pfx
          f.depth (f.idx + 1 == f.entries.length) env.cli s.visited
          ((rootSetup env root).2.1) (((rootSetup env root).2.1).getD root)
          hcanon hq (Or.inl hsym)
        exact ⟨hhit.1, hhit.2.1⟩
      · exact hlog rec hrec
  -- unfold the driver: early exit has an empty log, otherwise run the loop
  revert hrun
  unfold runTraversal
  intro h
  simp only [] at h
  by_cases hcond :
      (!(rootSetup env root).1.points_to_directory || (env.cli.max_depth == some 1)) = true
  · rw [if_pos hcond] at h
    rw [Option.some_inj] at h
    subst h
    intro rec hrec
    exact absurd hrec (by simp)
  · rw [if_neg hcond] at h
    exact (runLoop_inv env ((rootSetup env root).2.1) _ hstep fuel _ sF
      ⟨hinit, by simp⟩ h).2



/-- C10 witness: in the `link -> .` cycle fixture with follow-symlinks
enabled, the single processed entry (the symlink back to the root) is
emitted with the loop flag set and is not descended, on its very first
encounter. -/
theorem claim_C10_witness :
    ((((runTraversal (mkEnv fsCycle cfgFollow filtersNone) ["r"] 100).get
        (by decide)).log.get ⟨0, by decide⟩).entry.loop_detected = true) ∧
    ((((runTraversal (mkEnv fsCycle cfgFollow filtersNone) ["r"] 100).get
        (by decide)).log.get ⟨0, by decide⟩).descend = false) := by
  have h := claim_C10 (mkEnv fsCycle cfgFollow filtersNone) ["r"] 100
    ((runTraversal (mkEnv fsCycle cfgFollow filtersNone) ["r"] 100).get (by decide))
    (Option.some_get _).symm
  exact ⟨(h.2 _ (List.get_mem _ _ _) (by decide) (by decide)).1,
    (h.2 _ (List.get_mem _ _ _) (by decide) (by decide)).2⟩




/-- Number of universe canonicals not yet visited: the traversal's
primary termination measure. -/
def freshCount (univ visited : List FsPath) : Nat :=
  (univ.filter fun c => !visited.contains c).length

/-- Pending work of one frame: popping it plus its unprocessed entries. -/
def frameWork (f : Frame) : Nat := 1 + (f.entries.length - f.idx)

/-- Pending work of the whole stack. -/
def stackWork (stack : List Frame) : Nat := (stack.map frameWork).sum

/-- Lexicographic rank of a loop state, flattened: every iteration
strictly decreases it when frames hold at most `L` entries. -/
def loopRank (univ : List FsPath) (L : Nat) (s : LoopState) : Nat :=
  freshCount univ s.visited * (L + 2) + stackWork s.stack

theorem length_filter_imp {α : Type} (p q : α → Bool) :
    ∀ l : List α, (∀ x ∈ l, p x = true → q x = true) →
      (l.filter p).length ≤ (l.filter q).length := by
  intro l
  induction l with
  | nil => intro _; simp
  | cons a t ih =>
    intro h
    have ht := ih fun x hx => h x (by simp [hx])
    by_cases hpa : p a = true
    · rw [List.filter_cons_of_pos hpa, List.filter_cons_of_pos (h a (by simp) hpa)]
      simpa using ht
    · rw [List.filter_cons_of_neg (by simp [hpa])]
      by_cases hqa : q a = true
      · rw [List.filter_cons_of_pos hqa]
        exact ht.trans (by simp)
      · rw [List.filter_cons_of_neg (by simp [hqa])]
        exact ht

theorem length_filter_imp_lt {α : Type} (p q : α → Bool) (w : α) :
    ∀ l : List α, (∀ x ∈ l, p x = true → q x = true) → w ∈ l →
      q w = true → p w = false → (l.filter p).length < (l.filter q).length := by
  intro l
  induction l with
  | nil =>
    intro _ hw
    exact absurd hw (by simp)
  | cons a t ih =>
    intro himp hw hq hp
    rcases List.mem_cons.mp hw with rfl | hw
    · rw [List.filter_cons_of_neg (by simp [hp]), List.filter_cons_of_pos hq]
      have := length_filter_imp p q t fun x hx => himp x (by simp [hx])
      simpa using Nat.lt_succ_of_le this
    · have ht := ih (fun x hx => himp x (by simp [hx])) hw hq hp
      by_cases hpa : p a = true
      · rw [List.filter_cons_of_pos hpa, List.filter_cons_of_pos (himp a (by simp) hpa)]
        simpa using ht
      · rw [List.filter_cons_of_neg (by simp [hpa])]
        by_cases hqa : q a = true
        · rw [List.filter_cons_of_pos hqa]
          exact ht.trans (by simp)
        · rw [List.filter_cons_of_neg (by simp [hqa])]
          exact ht

/-- Inserting into the visited set never increases the fresh count. -/
theorem freshCount_cons_le (univ visited : List FsPath) (c : FsPath) :
    freshCount univ (c :: visited) ≤ freshCount univ visited := by
  apply length_filter_imp
  intro x _ hx
  simp only [List.contains_cons, Bool.not_eq_true', Bool.or_eq_false_iff] at hx ⊢
  exact hx.2

/-- Inserting a fresh universe canonical strictly decreases the fresh
count. -/
theorem freshCount_cons_lt (univ visited : List FsPath) (c : FsPath)
    (hmem : c ∈ univ) (hnv : visited.contains c = false) :
    freshCount univ (c :: visited) < freshCount univ visited := by
  refine length_filter_imp_lt _ _ c univ ?_ hmem ?_ ?_
  · intro x _ hx
    simp only [List.contains_cons, Bool.not_eq_true', Bool.or_eq_false_iff] at hx ⊢
    exact hx.2
  · simp only [Bool.not_eq_true']
    exact hnv
  · simp




/-- Wellformedness of a meta for termination purposes: its canonical
path (if any) lies in the finite canonical universe, and a plain
directory always has one (i.e. `fs::canonicalize` did not fail on it). -/
def MetaOk (univ : List FsPath) (m : EntryMeta) : Prop :=
  (∀ c, m.canonical_path = some c → c ∈ univ) ∧
  (m.is_symlink = false → m.is_directory = true → m.canonical_path.isSome = true)

/-- Wellformedness of a frame: all entries wellformed, at most `L` of
them. -/
def FrameOk (univ : List FsPath) (L : Nat) (f : Frame) : Prop :=
  (∀ m ∈ f.entries, MetaOk univ m) ∧ f.entries.length ≤ L ∧ f.idx = 0

/-- Wellformedness of a loop state: every stack frame came out of
`read_dir_frame` wellformed (its cursor may since have advanced). -/
def StateOk (univ : List FsPath) (L : Nat) (s : LoopState) : Prop :=
  ∀ f ∈ s.stack, (∀ m ∈ f.entries, MetaOk univ m) ∧ f.entries.length ≤ L

/-- Finiteness bounds on the traversal environment: every frame
`read_dir_frame` can produce is wellformed over the finite universe
`univ` with listings of at most `L` entries. -/
def TravBounds (env : Env) (univ : List FsPath) (L : Nat) : Prop :=
  ∀ (p : FsPath) (pfx : String) (d : Nat) (f : Frame),
    read_dir_frame env p pfx d = some f → FrameOk univ L f

/-- A negative descend decision leaves the visited set untouched. -/
theorem handle_entry_not_descend (meta : EntryMeta) (pfx : String) (depth : Nat)
    (is_last : Bool) (cli : Cfg) (visited : List FsPath) (rg : Option FsPath)
    (hnd : (handle_entry meta pfx depth is_last cli visited rg).descend = false) :
    (handle_entry meta pfx depth is_last cli visited rg).recorded = none ∧
    (handle_entry meta pfx depth is_last cli visited rg).visited = visited := by
  rcases handle_entry_insert_cases meta pfx depth is_last cli visited rg with
    h | ⟨c, _, _, _, _, hdes⟩
  · exact h
  · rw [hnd] at hdes
    exact absurd hdes (by simp)

/-- A positive descend decision on a wellformed meta records a fresh
universe canonical. -/
theorem handle_entry_descend_some (univ : List FsPath) (meta : EntryMeta)
    (pfx : String) (depth : Nat) (is_last : Bool) (cli : Cfg)
    (visited : List FsPath) (rg : Option FsPath) (hok : MetaOk univ meta)
    (hdes : (handle_entry meta pfx depth is_last cli visited rg).descend = true) :
    ∃ c, (handle_entry meta pfx depth is_last cli visited rg).recorded = some c ∧
      (handle_entry meta pfx depth is_last cli visited rg).visited = c :: visited ∧
      visited.contains c = false ∧ c ∈ univ := by
  rcases handle_entry_descend_shape meta pfx depth is_last cli visited rg hdes with
    ⟨c, hc, hrec⟩ | ⟨hcnone, hnosym, hdir, _⟩
  · rcases handle_entry_insert_cases meta pfx depth is_last cli visited rg with
      ⟨hrec2, _⟩ | ⟨c2, hrec2, hvis, hfresh, hc2, _⟩
    · rw [hrec] at hrec2
      exact absurd hrec2 (by simp)
    · rw [hc] at hc2
      rw [Option.some_inj] at hc2
      subst hc2
      exact ⟨c, hrec2, hvis, hfresh, hok.1 c hc⟩
  · have := hok.2 hnosym hdir
    rw [hcnone] at this
    exact absurd this (by simp)




theorem stackWork_cons (f : Frame) (rest : List Frame) :
    stackWork (f :: rest) = frameWork f + stackWork rest := by
  simp [stackWork]

theorem freshCount_le (univ visited : List FsPath) :
    freshCount univ visited ≤ univ.length :=
  List.length_filter_le _ _

/-- One `.next` iteration preserves wellformedness and strictly
decreases the rank: popping or advancing a cursor loses one unit of
stack work, and a descent retires a fresh canonical from the finite
universe, which outweighs the at most `L + 1` units of stack work the
pushed child frame adds. -/
theorem loopStep_rank (env : Env) (rg : Option FsPath) (univ : List FsPath)
    (L : Nat) (hb : TravBounds env univ L) (s s1 : LoopState)
    (hok : StateOk univ L s) (hstep : loopStep env rg s = .next s1) :
    StateOk univ L s1 ∧ loopRank univ L s1 < loopRank univ L s := by
  rcases loopStep_shape env rg s with ⟨_, hdone⟩ | ⟨f, rest, hst, hge, heq⟩ |
      ⟨f, rest, hlt, hst, hcase⟩
  · rw [hdone] at hstep
    exact absurd hstep (by simp)
  · rw [heq] at hstep
    rw [StepOut.next.injEq] at hstep
    subst hstep
    constructor
    · intro g hg
      exact hok g (by rw [hst]; exact List.mem_cons_of_mem _ hg)
    · have h1 : loopRank univ L { s with stack := rest }
          = freshCount univ s.visited * (L + 2) + stackWork rest := rfl
      have h2 : loopRank univ L s
          = freshCount univ s.visited * (L + 2) + stackWork s.stack := rfl
      have h3 : 1 ≤ frameWork f := by
        unfold frameWork
        omega
      rw [h1, h2, hst, stackWork_cons]
      omega
  · have hfOk := hok f (by rw [hst]; exact List.mem_cons_self f rest)
    have hmOk : MetaOk univ (f.entries.get ⟨f.idx, hlt⟩) :=
      hfOk.1 _ (f.entries.get_mem _ hlt)
    have hsh : stepHandle env rg s f hlt =
        handle_entry (f.entries.get ⟨f.idx, hlt⟩) f.pfx f.depth
          (f.idx + 1 == f.entries.length) env.cli s.visited rg := rfl
    have hnsVis : (stepNextState env rg s f rest hlt).visited =
        (stepHandle env rg s f hlt).visited := rfl
    have hnsStack : (stepNextState env rg s f rest hlt).stack =
        { f with idx := f.idx + 1 } :: rest := rfl
    have hfw : frameWork f = frameWork { f with idx := f.idx + 1 } + 1 := by
      unfold frameWork
      simp only []
      omega
    have hstateNS : StateOk univ L (stepNextState env rg s f rest hlt) := by
      intro g hg
      rw [hnsStack] at hg
      rcases List.mem_cons.mp hg with rfl | hg2
      · exact ⟨hfOk.1, hfOk.2⟩
      · exact hok g (by rw [hst]; exact List.mem_cons_of_mem _ hg2)
    rcases hcase with ⟨hdes, child, hrd, heq⟩ | ⟨heq, hside⟩
    · -- descend with a pushed child frame
      rw [heq] at hstep
      rw [StepOut.next.injEq] at hstep
      subst hstep
      have hchildOk := hb _ _ _ _ hrd
      obtain ⟨c, hrec, hvis, hfresh, hcuniv⟩ :=
        handle_entry_descend_some univ (f.entries.get ⟨f.idx, hlt⟩) f.pfx f.depth
          (f.idx + 1 == f.entries.length) env.cli s.visited rg hmOk hdes
      rw [← hsh] at hrec hvis
      constructor
      · intro g hg
        simp only [hnsStack] at hg
        rcases List.mem_cons.mp hg with rfl | hg2
        · exact ⟨hchildOk.1, hchildOk.2.1⟩
        · exact hstateNS g (by rw [hnsStack]; exact hg2)
      · have hrank1 : loopRank univ L { stepNextState env rg s f rest hlt with
            stack := child :: (stepNextState env rg s f rest hlt).stack }
            = freshCount univ (c :: s.visited) * (L + 2) +
              (frameWork child +
                (frameWork { f with idx := f.idx + 1 } + stackWork rest)) := by
          rw [loopRank]
          simp only [hnsVis, hvis, hnsStack]
          rw [stackWork_cons, stackWork_cons]
        have hrank2 : loopRank univ L s
            = freshCount univ s.visited * (L + 2) +
              (frameWork f + stackWork rest) := by
          rw [loopRank, hst, stackWork_cons]
        have hcw : frameWork child ≤ L + 1 := by
          unfold frameWork
          rw [hchildOk.2.2]
          have := hchildOk.2.1
          omega
        have hmul : freshCount univ (c :: s.visited) * (L + 2) + (L + 2)
            ≤ freshCount univ s.visited * (L + 2) := by
          have hlt2 := freshCount_cons_lt univ s.visited c hcuniv hfresh
          have h4 : freshCount univ (c :: s.visited) + 1
              ≤ freshCount univ s.visited := hlt2
          calc freshCount univ (c :: s.visited) * (L + 2) + (L + 2)
              = (freshCount univ (c :: s.visited) + 1) * (L + 2) := by ring
            _ ≤ freshCount univ s.visited * (L + 2) :=
                Nat.mul_le_mul_right _ h4
        obtain ⟨A, hA⟩ : ∃ A, freshCount univ (c :: s.visited) * (L + 2) = A :=
          ⟨_, rfl⟩
        obtain ⟨B, hB⟩ : ∃ B, freshCount univ s.visited * (L + 2) = B :=
          ⟨_, rfl⟩
        rw [hA, hB] at hmul
        rw [hrank1, hrank2, hA, hB]
        omega
    · -- cursor advance without a push
      rw [heq] at hstep
      rw [StepOut.next.injEq] at hstep
      subst hstep
      refine ⟨hstateNS, ?_⟩
      have hrank2 : loopRank univ L s
          = freshCount univ s.visited * (L + 2) +
            (frameWork f + stackWork rest) := by
        rw [loopRank, hst, stackWork_cons]
      rcases hdc : (stepHandle env rg s f hlt).descend with _ | _
      · obtain ⟨hrec, hvis⟩ :=
          handle_entry_not_descend (f.entries.get ⟨f.idx, hlt⟩) f.pfx f.depth
            (f.idx + 1 == f.entries.length) env.cli s.visited rg (hsh ▸ hdc)
        rw [← hsh] at hvis
        have hrank1 : loopRank univ L (stepNextState env rg s f rest hlt)
            = freshCount univ s.visited * (L + 2) +
              (frameWork { f with idx := f.idx + 1 } + stackWork rest) := by
          rw [loopRank]
          simp only [hnsVis, hvis, hnsStack]
          rw [stackWork_cons]
        obtain ⟨B, hB⟩ : ∃ B, freshCount univ s.visited * (L + 2) = B :=
          ⟨_, rfl⟩
        rw [hrank1, hrank2, hB]
        omega
      · obtain ⟨c, hrec, hvis, hfresh, hcuniv⟩ :=
          handle_entry_descend_some univ (f.entries.get ⟨f.idx, hlt⟩) f.pfx f.depth
            (f.idx + 1 == f.entries.length) env.cli s.visited rg hmOk (hsh ▸ hdc)
        rw [← hsh] at hrec hvis
        have hrank1 : loopRank univ L (stepNextState env rg s f rest hlt)
            = freshCount univ (c :: s.visited) * (L + 2) +
              (frameWork { f with idx := f.idx + 1 } + stackWork rest) := by
          rw [loopRank]
          simp only [hnsVis, hvis, hnsStack]
          rw [stackWork_cons]
        have hmul : freshCount univ (c :: s.visited) * (L + 2) + (L + 2)
            ≤ freshCount univ s.visited * (L + 2) := by
          have hlt2 := freshCount_cons_lt univ s.visited c hcuniv hfresh
          have h4 : freshCount univ (c :: s.visited) + 1
              ≤ freshCount univ s.visited := hlt2
          calc freshCount univ (c :: s.visited) * (L + 2) + (L + 2)
              = (freshCount univ (c :: s.visited) + 1) * (L + 2) := by ring
            _ ≤ freshCount univ s.visited * (L + 2) :=
                Nat.mul_le_mul_right _ h4
        obtain ⟨A, hA⟩ : ∃ A, freshCount univ (c :: s.visited) * (L + 2) = A :=
          ⟨_, rfl⟩
        obtain ⟨B, hB⟩ : ∃ B, freshCount univ s.visited * (L + 2) = B :=
          ⟨_, rfl⟩
        rw [hA, hB] at hmul
        rw [hrank1, hrank2, hA, hB]
        omega




/-- Fuel exceeding the rank drains the loop: the strict rank decrease of
every `.next` step turns the fuel bound into termination. -/
theorem runLoop_terminates (env : Env) (rg : Option FsPath) (univ : List FsPath)
    (L : Nat) (hb : TravBounds env univ L) :
    ∀ (fuel : Nat) (s : LoopState), StateOk univ L s →
      loopRank univ L s < fuel → (runLoop env rg fuel s).isSome = true := by
  intro fuel
  induction fuel with
  | zero =>
    intro s _ h
    exact absurd h (Nat.not_lt_zero _)
  | succ n ih =>
    intro s hok hrank
    rw [runLoop]
    rcases hls : loopStep env rg s with s2 | s2
    · simp
    · obtain ⟨hok1, hdec⟩ := loopStep_rank env rg univ L hb s s2 hok hls
      exact ih s2 hok1 (by omega)

/-- Ghost soundness of the opened log: recorded canonicals are distinct
and all of them are in the visited set. -/
def OpenedOk (s : LoopState) : Prop :=
  s.opened.Nodup ∧ ∀ c ∈ s.opened, c ∈ s.visited

/-- One loop iteration preserves the opened-log invariant: a canonical
is recorded only when it was absent from the visited set, which contains
all previously recorded ones. -/
theorem loopStep_openedOk (env : Env) (rg : Option FsPath) (s s1 : LoopState)
    (hstep : loopStep env rg s = .next s1) (h : OpenedOk s) : OpenedOk s1 := by
  rcases loopStep_shape env rg s with ⟨_, hdone⟩ | ⟨f, rest, hst, hge, heq⟩ |
      ⟨f, rest, hlt, hst, hcase⟩
  · rw [hdone] at hstep
    exact absurd hstep (by simp)
  · rw [heq] at hstep
    rw [StepOut.next.injEq] at hstep
    subst hstep
    exact h
  · have hsh : stepHandle env rg s f hlt =
        handle_entry (f.entries.get ⟨f.idx, hlt⟩) f.pfx f.depth
          (f.idx + 1 == f.entries.length) env.cli s.visited rg := rfl
    have hns : OpenedOk (stepNextState env rg s f rest hlt) := by
      rcases handle_entry_insert_cases (f.entries.get ⟨f.idx, hlt⟩) f.pfx f.depth
          (f.idx + 1 == f.entries.length) env.cli s.visited rg with
        ⟨hrec, hvis⟩ | ⟨c, hrec, hvis, hfresh, hcan, hdes⟩
      · rw [← hsh] at hrec hvis
        have ho : (stepNextState env rg s f rest hlt).opened = s.opened := by
          show (((stepHandle env rg s f hlt).recorded.map (· :: s.opened)).getD
            s.opened) = s.opened
          rw [hrec]
          rfl
        have hv : (stepNextState env rg s f rest hlt).visited = s.visited := by
          show (stepHandle env rg s f hlt).visited = s.visited
          exact hvis
        refine ⟨?_, ?_⟩
        · rw [ho]
          exact h.1
        · rw [ho, hv]
          exact h.2
      · rw [← hsh] at hrec hvis
        have ho : (stepNextState env rg s f rest hlt).opened = c :: s.opened := by
          show (((stepHandle env rg s f hlt).recorded.map (· :: s.opened)).getD
            s.opened) = c :: s.opened
          rw [hrec]
          rfl
        have hv : (stepNextState env rg s f rest hlt).visited = c :: s.visited := by
          show (stepHandle env rg s f hlt).visited = c :: s.visited
          exact hvis
        have hcnv : c ∉ s.visited := by simpa using hfresh
        refine ⟨?_, ?_⟩
        · rw [ho]
          exact List.nodup_cons.mpr ⟨fun hco => hcnv (h.2 c hco), h.1⟩
        · rw [ho, hv]
          intro x hx
          rcases List.mem_cons.mp hx with rfl | hx2
          · exact List.mem_cons_self _ _
          · exact List.mem_cons_of_mem _ (h.2 x hx2)
    rcases hcase with ⟨hdes2, child, hrd, heq⟩ | ⟨heq, hside⟩
    · rw [heq] at hstep
      rw [StepOut.next.injEq] at hstep
      subst hstep
      exact hns
    · rw [heq] at hstep
      rw [StepOut.next.injEq] at hstep
      subst hstep
      exact hns

/-- When the cursor entry's canonical path is already visited, the loop
iteration never grows the stack: a push requires a positive descend
decision, which a visited hit forbids. -/
theorem loopStep_no_push_of_hit (env : Env) (rg : Option FsPath) (s s1 : LoopState)
    (f : Frame) (rest : List Frame) (hlt : f.idx < f.entries.length) (c : FsPath)
    (hst : s.stack = f :: rest)
    (hc : (f.entries.get ⟨f.idx, hlt⟩).canonical_path = some c)
    (hv : s.visited.contains c = true)
    (hstep : loopStep env rg s = .next s1) :
    s1.stack.length ≤ s.stack.length := by
  rcases loopStep_shape env rg s with ⟨hemp, _⟩ | ⟨g, grest, hst2, hge, heq⟩ |
      ⟨g, grest, hglt, hst2, hcase⟩
  · rw [hemp] at hst
    exact absurd hst (by simp)
  · rw [heq] at hstep
    rw [StepOut.next.injEq] at hstep
    subst hstep
    show grest.length ≤ s.stack.length
    rw [hst2]
    simp
  · rw [hst] at hst2
    injection hst2 with h1 h2
    subst h1
    subst h2
    rcases hcase with ⟨hdes, child, hrd, heq⟩ | ⟨heq, hside⟩
    · exfalso
      have hsh : stepHandle env rg s f hglt =
          handle_entry (f.entries.get ⟨f.idx, hglt⟩) f.pfx f.depth
            (f.idx + 1 == f.entries.length) env.cli s.visited rg := rfl
      have hc2 : (f.entries.get ⟨f.idx, hglt⟩).canonical_path = some c := hc
      rcases handle_entry_descend_shape (f.entries.get ⟨f.idx, hglt⟩) f.pfx f.depth
          (f.idx + 1 == f.entries.length) env.cli s.visited rg (hsh ▸ hdes) with
        ⟨c3, hc3, hrec3⟩ | ⟨hcnone, _, _, _⟩
      · have hcc : c3 = c := by
          rw [hc2] at hc3
          exact (Option.some_inj.mp hc3).symm
        subst hcc
        rcases handle_entry_insert_cases (f.entries.get ⟨f.idx, hglt⟩) f.pfx f.depth
            (f.idx + 1 == f.entries.length) env.cli s.visited rg with
          ⟨hrecn, _⟩ | ⟨c4, hrec4, _, hfresh4, hc4, _⟩
        · rw [hrecn] at hrec3
          exact absurd hrec3 (by simp)
        · have hcc4 : c4 = c3 := by
            rw [hrec3] at hrec4
            exact (Option.some_inj.mp hrec4).symm
          subst hcc4
          rw [hv] at hfresh4
          exact absurd hfresh4 (by simp)
      · rw [hc2] at hcnone
        exact absurd hcnone (by simp)
    · rw [heq] at hstep
      rw [StepOut.next.injEq] at hstep
      subst hstep
      show ({ f with idx := f.idx + 1 } :: rest).length ≤ s.stack.length
      rw [hst]
      simp

/-- The cursor of a freshly listed frame is zero, and the listing of a
path does not depend on the indentation prefix or the depth tag. -/
theorem read_dir_frame_shape (env : Env) (p : FsPath) (pfx : String) (d : Nat)
    (f : Frame) (hf : read_dir_frame env p pfx d = some f) :
    f.idx = 0 ∧ read_dir_frame env p "" 0 =
      some { entries := f.entries, idx := 0, pfx := "", depth := 0, dirPath := p } := by
  revert hf
  simp only [read_dir_frame]
  rcases env.fs.readDir p with _ | rd
  · intro h
    exact absurd h (by simp)
  · simp only []
    split
    · intro h
      exact absurd h (by simp)
    · split
      · intro h
        exact absurd h (by simp)
      · intro h
        rw [Option.some_inj] at h
        subst h
        exact ⟨rfl, rfl⟩

/-- Executable check of the meta wellformedness predicate. -/
def metaOkB (univ : List FsPath) (m : EntryMeta) : Bool :=
  (match m.canonical_path with
   | some c => univ.contains c
   | none => true) &&
  (m.is_symlink || !m.is_directory || m.canonical_path.isSome)

theorem metaOk_of_bool (univ : List FsPath) (m : EntryMeta)
    (h : metaOkB univ m = true) : MetaOk univ m := by
  rw [metaOkB, Bool.and_eq_true] at h
  constructor
  · intro c hc
    have h1 := h.1
    rw [hc] at h1
    simpa using h1
  · intro hs hd
    have h2 := h.2
    rw [hs, hd] at h2
    simpa using h2

/-- Executable check that every frame listed out of `p` is wellformed
over `univ` with at most `L` entries. -/
def frameEntriesOkB (env : Env) (univ : List FsPath) (L : Nat) (p : FsPath) : Bool :=
  match read_dir_frame env p "" 0 with
  | none => true
  | some f => f.entries.all (metaOkB univ) && decide (f.entries.length ≤ L)

theorem frameOk_of_bool (env : Env) (univ : List FsPath) (L : Nat) (p : FsPath)
    (hq : frameEntriesOkB env univ L p = true) (pfx : String) (d : Nat) (f : Frame)
    (hf : read_dir_frame env p pfx d = some f) : FrameOk univ L f := by
  obtain ⟨hidx, hshape⟩ := read_dir_frame_shape env p pfx d f hf
  rw [frameEntriesOkB, hshape] at hq
  have hq2 : (f.entries.all (metaOkB univ) && decide (f.entries.length ≤ L))
      = true := hq
  rw [Bool.and_eq_true] at hq2
  refine ⟨?_, ?_, hidx⟩
  · intro m hm
    exact metaOk_of_bool univ m (List.all_eq_true.mp hq2.1 m hm)
  · exact of_decide_eq_true hq2.2

/-- With every reachable listing wellformed over a finite canonical
universe, explicit fuel linear in the universe and listing bounds drains
the whole traversal. -/
theorem runTraversal_terminates (env : Env) (univ : List FsPath) (L : Nat)
    (hb : TravBounds env univ L) (root : FsPath) :
    (runTraversal env root (univ.length * (L + 2) + L + 2)).isSome = true := by
  unfold runTraversal
  simp only []
  by_cases hcond :
      (!(rootSetup env root).1.points_to_directory ||
        (env.cli.max_depth == some 1)) = true
  · rw [if_pos hcond]
    rfl
  · rw [if_neg hcond]
    have hok : StateOk univ L
        { visited := (rootSetup env root).2.2, stack := rootStack env root,
          out := [], opened := [], log := [] } := by
      intro g hg
      have hg2 : g ∈ rootStack env root := hg
      rcases hrd : read_dir_frame env root "" 1 with _ | f0
      · unfold rootStack at hg2
        rw [hrd] at hg2
        simp at hg2
      · unfold rootStack at hg2
        rw [hrd] at hg2
        simp at hg2
        subst hg2
        have hf0 := hb _ _ _ _ hrd
        exact ⟨hf0.1, hf0.2.1⟩
    have h2 : stackWork (rootStack env root) ≤ L + 1 := by
      rcases hrd : read_dir_frame env root "" 1 with _ | f0
      · unfold rootStack
        rw [hrd]
        simp [stackWork]
      · unfold rootStack
        rw [hrd]
        have hf0 := hb _ _ _ _ hrd
        show stackWork [f0] ≤ L + 1
        rw [stackWork_cons]
        have hz : stackWork ([] : List Frame) = 0 := by simp [stackWork]
        rw [hz]
        unfold frameWork
        have hlen := hf0.2.1
        omega
    refine runLoop_terminates env ((rootSetup env root).2.1) univ L hb _ _ hok ?_
    have h1 : freshCount univ (rootSetup env root).2.2 * (L + 2)
        ≤ univ.length * (L + 2) :=
      Nat.mul_le_mul_right _ (freshCount_le _ _)
    have hr : loopRank univ L
        { visited := (rootSetup env root).2.2, stack := rootStack env root,
          out := [], opened := [], log := [] }
        = freshCount univ (rootSetup env root).2.2 * (L + 2)
          + stackWork (rootStack env root) := rfl
    obtain ⟨A, hA⟩ : ∃ A, freshCount univ (rootSetup env root).2.2 * (L + 2) = A :=
      ⟨_, rfl⟩
    obtain ⟨B, hB⟩ : ∃ B, univ.length * (L + 2) = B := ⟨_, rfl⟩
    rw [hA, hB] at h1
    rw [hr, hA, hB]
    omega




/-- C2: a directory or directory-pointing symlink whose canonical path
is already in the visited set is still emitted with `loop_detected =
true`, records nothing, leaves the visited set unchanged and is never
descended into; a loop iteration whose cursor entry hits the visited set
never grows the frame stack; no canonical path is ever recorded into the
visited set twice over a whole run; and under finiteness bounds on the
environment (every reachable listing draws its canonicals from a
universe of `n` paths and holds at most `L` entries) the traversal
drains with explicit fuel `n * (L + 2) + L + 2`, so it terminates even
on cyclic trees. -/
theorem claim_C2 (env : Env) (univ : List FsPath) (L : Nat)
    (hb : TravBounds env univ L) :
    (∀ meta pfx depth is_last visited rg c,
      EntryMeta.canonical_path meta = some c → visited.contains c = true →
      (meta.is_symlink = true ∨ meta.is_directory = true) →
      (handle_entry meta pfx depth is_last env.cli visited rg).entry.loop_detected
          = true ∧
      (handle_entry meta pfx depth is_last env.cli visited rg).descend = false ∧
      (handle_entry meta pfx depth is_last env.cli visited rg).recorded = none ∧
      (handle_entry meta pfx depth is_last env.cli visited rg).visited = visited) ∧
    (∀ rg s s1 f rest c, s.stack = f :: rest →
      ∀ h : f.idx < f.entries.length,
      (f.entries.get ⟨f.idx, h⟩).canonical_path = some c →
      s.visited.contains c = true →
      loopStep env rg s = .next s1 → s1.stack.length ≤ s.stack.length) ∧
    (∀ root fuel sF, runTraversal env root fuel = some sF → sF.opened.Nodup) ∧
    (∀ root, (runTraversal env root (univ.length * (L + 2) + L + 2)).isSome
        = true) := by
  refine ⟨?_, ?_, ?_, ?_⟩
  · intro meta pfx depth is_last visited rg c hc hv hdir
    exact handle_entry_loop_hit meta pfx depth is_last env.cli visited rg c hc hv hdir
  · intro rg s s1 f rest c hst h hc hv hstep
    exact loopStep_no_push_of_hit env rg s s1 f rest h c hst hc hv hstep
  · intro root fuel sF hrun
    revert hrun
    unfold runTraversal
    intro hrun
    simp only [] at hrun
    by_cases hcond :
        (!(rootSetup env root).1.points_to_directory ||
          (env.cli.max_depth == some 1)) = true
    · rw [if_pos hcond] at hrun
      rw [Option.some_inj] at hrun
      subst hrun
      exact List.nodup_nil
    · rw [if_neg hcond] at hrun
      refine (runLoop_inv env ((rootSetup env root).2.1) OpenedOk ?_ fuel _ sF
        ?_ hrun).1
      · intro s s1 hls hP
        exact loopStep_openedOk env _ s s1 hls hP
      · refine ⟨List.nodup_nil, ?_⟩
        intro c hc
        exact absurd hc (by simp)
  · intro root
    exact runTraversal_terminates env univ L hb root

/-- C2 witness: in the `link -> .` cycle fixture with follow-symlinks
enabled, the finiteness bounds hold with the one-path universe and
singleton listings, explicit fuel 6 drains the traversal, and its opened
log is duplicate-free. -/
theorem claim_C2_witness :
    (runTraversal (mkEnv fsCycle cfgFollow filtersNone) ["r"] 6).isSome = true ∧
    ((runTraversal (mkEnv fsCycle cfgFollow filtersNone) ["r"] 6).get
      (by decide)).opened.Nodup := by
  have hb : TravBounds (mkEnv fsCycle cfgFollow filtersNone) [["r"]] 1 := by
    intro p pfx d f hf
    by_cases hp : p = ["r"]
    · subst hp
      exact frameOk_of_bool _ _ _ _ (by decide) pfx d f hf
    · by_cases hp2 : p = ["r", "link"]
      · subst hp2
        exact frameOk_of_bool _ _ _ _ (by decide) pfx d f hf
      · exfalso
        have hnone : (mkEnv fsCycle cfgFollow filtersNone).fs.readDir p = none := by
          simp [mkEnv, fsCycle, hp, hp2]
        unfold read_dir_frame at hf
        rw [hnone] at hf
        simp at hf
  have h := claim_C2 (mkEnv fsCycle cfgFollow filtersNone) [["r"]] 1 hb
  refine ⟨h.2.2.2 ["r"], ?_⟩
  exact h.2.2.1 ["r"] 6 _ (Option.some_get _).symm


end Printree
